import Mathlib

/-!
concise-awaituntil: the function `until`.

The repository is one function,

    function until(asyncFunction) {
      return asyncFunction
        .then(outcome =>  { return [outcome, null] })
        .catch(failure => { return [null, failure] })
    }

It is embedded over an operational model of the host's promises: a heap of
promise records with their reaction lists, a FIFO queue of reaction jobs, and a
record of the handler invocations.  The operations are the abstract operations of
ECMAScript (PerformPromiseThen, FulfillPromise and RejectPromise with
TriggerPromiseReactions, the promise resolving functions, PromiseReactionJob), for
values that are not thenables.  The environment (the caller and every other piece
of code running on the same event loop) is a list of actions: it creates promises,
settles those it created, registers reactions and lets queued jobs run.

The development has three layers: the invariant `Derived` of one call of `then`,
kept by every action; the invariant `Adapted` of one call of `until`, two links of
`Derived`; and the claims about `until`, each read off `Adapted` in an arbitrary
heap reached after the call.
-/

namespace AwaitUntil

/-! ## Values -/

/-- JavaScript values that can travel through a promise.  Thenables are left out:
a promise is never fulfilled with one. -/
inductive JSVal where
  | undefined : JSVal
  | null : JSVal
  | bool (b : Bool) : JSVal
  | num (n : Int) : JSVal
  | str (s : String) : JSVal
  | error (message : String) : JSVal
  | array (elems : List JSVal) : JSVal

/-- The strict test `v === null`. -/
def JSVal.isNull : JSVal → Bool
  | .null => true
  | _ => false

/-- Element access `t[i]`: `undefined` outside an array or past its end. -/
def JSVal.index : JSVal → Nat → JSVal
  | .array elems, i => elems.getD i .undefined
  | _, _ => .undefined

/-- Completion of a function call: `.ok v` for `return v`, `.error e` for `throw e`. -/
abbrev Completion := Except JSVal JSVal

/-- A callback handed to `then` or `catch`. -/
abbrev Handler := JSVal → Completion

/-! ## The host's promises -/

/-- The `[[PromiseState]]` slot together with `[[PromiseResult]]`. -/
inductive PromiseState where
  | pending : PromiseState
  | fulfilled (value : JSVal) : PromiseState
  | rejected (reason : JSVal) : PromiseState

/-- A promise is settled when it is no longer pending. -/
def PromiseState.settled : PromiseState → Bool
  | .pending => false
  | _ => true

/-- The state a promise takes when it is settled with a completion. -/
def Completion.toState : Completion → PromiseState
  | .ok v => .fulfilled v
  | .error e => .rejected e

/-- The `[[Type]]` of a reaction. -/
inductive ReactionKind where
  | fulfill : ReactionKind
  | reject : ReactionKind
  deriving DecidableEq

/-- A PromiseReaction record: the derived promise it settles (its capability), its
kind, and the handler (`none` when the argument given to `then` was not callable). -/
structure Reaction where
  capability : Nat
  kind : ReactionKind
  handler : Option Handler

/-- A promise object.  `root` says that its resolving functions are in the hands of
the environment (`new Promise(executor)`); a promise made by `then` is settled by
its reaction job only. -/
structure PromiseRecord where
  state : PromiseState
  fulfillReactions : List Reaction
  rejectReactions : List Reaction
  root : Bool

/-- A queued PromiseReactionJob. -/
structure Job where
  reaction : Reaction
  argument : JSVal

/-- One invocation of a handler: on behalf of which derived promise, from which
reaction, which function, with which argument, and how it completed. -/
structure Call where
  capability : Nat
  kind : ReactionKind
  handler : Handler
  argument : JSVal
  result : Completion

/-- The heap of promises, the allocation counter, the job queue (front first) and
the handler invocations so far (oldest first). -/
structure Heap where
  promises : Nat → PromiseRecord
  next : Nat
  jobs : List Job
  calls : List Call

/-- A promise that was just created. -/
def PromiseRecord.fresh (root : Bool) : PromiseRecord :=
  { state := .pending, fulfillReactions := [], rejectReactions := [], root := root }

/-- The heap before anything has happened. -/
def Heap.empty : Heap :=
  { promises := fun _ => PromiseRecord.fresh false, next := 0, jobs := [], calls := [] }

/-- Overwrite one promise record. -/
def Heap.set (h : Heap) (i : Nat) (r : PromiseRecord) : Heap :=
  { h with promises := fun j => if j = i then r else h.promises j }

/-- Allocate a pending promise. -/
def Heap.alloc (h : Heap) (root : Bool) : Heap × Nat :=
  ({ (h.set h.next (PromiseRecord.fresh root)) with next := h.next + 1 }, h.next)

/-- State of promise `p`. -/
def Heap.stateOf (h : Heap) (p : Nat) : PromiseState :=
  (h.promises p).state

/-- FulfillPromise / RejectPromise: record the result, empty both reaction lists
and queue one job for every reaction of the matching kind (TriggerPromiseReactions). -/
def settlePromise (h : Heap) (p : Nat) (c : Completion) : Heap :=
  let r := h.promises p
  let reactions :=
    match c with
    | .ok _ => r.fulfillReactions
    | .error _ => r.rejectReactions
  let arg :=
    match c with
    | .ok v => v
    | .error e => e
  let h1 := h.set p { r with state := c.toState, fulfillReactions := [], rejectReactions := [] }
  { h1 with jobs := h1.jobs ++ reactions.map (fun x => { reaction := x, argument := arg }) }

/-- The resolving functions of promise `p`: they act once, on a pending promise. -/
def resolvePromise (h : Heap) (p : Nat) (c : Completion) : Heap :=
  match (h.promises p).state with
  | .pending => settlePromise h p c
  | _ => h

/-- PerformPromiseThen: on a pending promise append the two reactions, on a settled
one queue the job of the matching reaction. -/
def performPromiseThen (h : Heap) (p : Nat) (onFulfilled onRejected : Option Handler)
    (cap : Nat) : Heap :=
  let fr : Reaction := { capability := cap, kind := .fulfill, handler := onFulfilled }
  let rr : Reaction := { capability := cap, kind := .reject, handler := onRejected }
  let r := h.promises p
  match r.state with
  | .pending =>
      h.set p { r with fulfillReactions := r.fulfillReactions ++ [fr],
                       rejectReactions := r.rejectReactions ++ [rr] }
  | .fulfilled v => { h with jobs := h.jobs ++ [{ reaction := fr, argument := v }] }
  | .rejected e => { h with jobs := h.jobs ++ [{ reaction := rr, argument := e }] }

/-- `p.then(onFulfilled, onRejected)`: a new derived promise and PerformPromiseThen.
Fails (a TypeError in the host) when `p` is not a promise of the heap. -/
def promiseThen (h : Heap) (p : Nat) (onFulfilled onRejected : Option Handler) :
    Option (Heap × Nat) :=
  if p < h.next then
    let a := h.alloc false
    some (performPromiseThen a.1 p onFulfilled onRejected a.2, a.2)
  else
    none

/-- `p.catch(onRejected)` is `p.then(undefined, onRejected)`. -/
def promiseCatch (h : Heap) (p : Nat) (onRejected : Option Handler) : Option (Heap × Nat) :=
  promiseThen h p none onRejected

/-- What a reaction makes of its argument: the handler's completion, or without a
handler the argument passed on (returned by a fulfill reaction, thrown by a reject
reaction). -/
def runHandler (kind : ReactionKind) (handler : Option Handler) (arg : JSVal) : Completion :=
  match handler with
  | some f => f arg
  | none =>
      match kind with
      | .fulfill => .ok arg
      | .reject => .error arg

/-- The completion of a reaction on its argument. -/
def Reaction.run (r : Reaction) (arg : JSVal) : Completion :=
  runHandler r.kind r.handler arg

/-- The handler invocation a job makes: none when its reaction has no handler. -/
def Job.call (j : Job) : List Call :=
  match j.reaction.handler with
  | some f => [{ capability := j.reaction.capability, kind := j.reaction.kind, handler := f,
                 argument := j.argument, result := j.reaction.run j.argument }]
  | none => []

/-- PromiseReactionJob: run the reaction, record the handler invocation if there is
one, and settle the derived promise with the completion. -/
def promiseReactionJob (h : Heap) (j : Job) : Heap :=
  resolvePromise { h with calls := h.calls ++ j.call } j.reaction.capability
    (j.reaction.run j.argument)

/-- Take the job at the front of the queue and run it. -/
def runJob (h : Heap) : Heap :=
  match h.jobs with
  | [] => h
  | j :: rest => promiseReactionJob { h with jobs := rest } j

/-! ## The environment -/

/-- What can happen on the event loop. -/
inductive Action where
  | newPromise : Action
  | resolve (p : Nat) (value : JSVal) : Action
  | reject (p : Nat) (reason : JSVal) : Action
  | thenCall (p : Nat) (onFulfilled onRejected : Option Handler) : Action
  | runJob : Action

/-- One action.  The environment settles only promises whose resolving functions it
holds. -/
def step (h : Heap) : Action → Heap
  | .newPromise => (h.alloc true).1
  | .resolve p v => if p < h.next ∧ (h.promises p).root = true then resolvePromise h p (.ok v) else h
  | .reject p e => if p < h.next ∧ (h.promises p).root = true then resolvePromise h p (.error e) else h
  | .thenCall p f g =>
      match promiseThen h p f g with
      | some r => r.1
      | none => h
  | .runJob => runJob h

/-- A run of the event loop. -/
def exec (h : Heap) (as : List Action) : Heap :=
  as.foldl step h

/-! ## The source -/

/-- The success continuation `outcome => { return [outcome, null] }`. -/
def onSuccess : Handler :=
  fun outcome => .ok (.array [outcome, .null])

/-- The failure continuation `failure => { return [null, failure] }`. -/
def onFailure : Handler :=
  fun failure => .ok (.array [.null, failure])

/-- The function `until` of `index.js`:
`asyncFunction.then(onSuccess).catch(onFailure)`. -/
def «until» (h : Heap) (asyncFunction : Nat) : Option (Heap × Nat) :=
  match promiseThen h asyncFunction (some onSuccess) none with
  | some r => promiseCatch r.1 r.2 (some onFailure)
  | none => none

/-! ## What one `then` promises -/

/-- The job that `p.then(f, g)` with derived promise `c` gets queued once `p` has
the given state. -/
def reactionJob (c : Nat) (f g : Option Handler) : PromiseState → Option Job
  | .pending => none
  | .fulfilled v => some { reaction := { capability := c, kind := .fulfill, handler := f }, argument := v }
  | .rejected e => some { reaction := { capability := c, kind := .reject, handler := g }, argument := e }

/-- The state in which `p.then(f, g)` ends, from the state of `p`. -/
def thenState (f g : Option Handler) : PromiseState → PromiseState
  | .pending => .pending
  | .fulfilled v => (runHandler .fulfill f v).toState
  | .rejected e => (runHandler .reject g e).toState

/-- The reactions still registered on `p` for the derived promise. -/
def expectReactions (r : Reaction) : PromiseState → List Reaction
  | .pending => [r]
  | _ => []

/-- The jobs in the queue for the derived promise. -/
def expectJobs (c : Nat) (f g : Option Handler) (sp sc : PromiseState) : List Job :=
  match sc with
  | .pending => (reactionJob c f g sp).toList
  | _ => []

/-- The handler invocations made for the derived promise. -/
def expectCalls (c : Nat) (f g : Option Handler) (sp sc : PromiseState) : List Call :=
  match sc with
  | .pending => []
  | _ =>
    match reactionJob c f g sp with
    | some j => j.call
    | none => []

/-- Reactions, jobs and recorded calls name allocated promises only. -/
structure WF (h : Heap) : Prop where
  fulfill : ∀ i, ∀ r ∈ (h.promises i).fulfillReactions, r.capability < h.next
  reject : ∀ i, ∀ r ∈ (h.promises i).rejectReactions, r.capability < h.next
  jobs : ∀ j ∈ h.jobs, j.reaction.capability < h.next
  calls : ∀ x ∈ h.calls, x.capability < h.next

/-- The promise `c` is the one `p.then(f, g)` returned: everything in the heap
that concerns `c` is determined by the states of `p` and `c`. -/
structure Derived (h : Heap) (p c : Nat) (f g : Option Handler) : Prop where
  p_lt : p < h.next
  c_lt : c < h.next
  ne : p ≠ c
  not_root : (h.promises c).root = false
  others_f : ∀ i, i ≠ p → ∀ r ∈ (h.promises i).fulfillReactions, r.capability ≠ c
  others_r : ∀ i, i ≠ p → ∀ r ∈ (h.promises i).rejectReactions, r.capability ≠ c
  own_f : (h.promises p).fulfillReactions.filter (fun r => r.capability == c)
            = expectReactions { capability := c, kind := .fulfill, handler := f } (h.stateOf p)
  own_r : (h.promises p).rejectReactions.filter (fun r => r.capability == c)
            = expectReactions { capability := c, kind := .reject, handler := g } (h.stateOf p)
  jobs : h.jobs.filter (fun j => j.reaction.capability == c)
            = expectJobs c f g (h.stateOf p) (h.stateOf c)
  calls : h.calls.filter (fun x => x.capability == c)
            = expectCalls c f g (h.stateOf p) (h.stateOf c)
  state : h.stateOf c = .pending ∨ h.stateOf c = thenState f g (h.stateOf p)

/-- The promises of one invocation of `until` on `p`: `m` is what `then` returned
and `o` what `catch` returned, the result of `until`. -/
structure Adapted (h : Heap) (p m o : Nat) : Prop where
  first : Derived h p m (some onSuccess) none
  second : Derived h m o none (some onFailure)

/-- The state in which the promise returned by `until` ends, from the state of its
input: the two links of the chain one after the other. -/
def untilState (sp : PromiseState) : PromiseState :=
  thenState none (some onFailure) (thenState (some onSuccess) none sp)

/-- The handler invocations recorded for the derived promise `c`. -/
def Heap.callsFor (h : Heap) (c : Nat) : List Call :=
  h.calls.filter (fun x => x.capability == c)

/-- One use of `until`: the event loop runs `pre`, `until` is called on promise `p`,
the event loop runs `post`.  The result is the final heap and the promise that
`until` returned. -/
def session (pre : List Action) (p : Nat) (post : List Action) : Option (Heap × Nat) :=
  match «until» (exec Heap.empty pre) p with
  | some r => some (exec r.1 post, r.2)
  | none => none

/-- The two-callback form `asyncFunction.then(onSuccess, onFailure)`. -/
def untilTwoCallback (h : Heap) (asyncFunction : Nat) : Option (Heap × Nat) :=
  promiseThen h asyncFunction (some onSuccess) (some onFailure)

/-- One use of the two-callback form, as `session`. -/
def sessionTwoCallback (pre : List Action) (p : Nat) (post : List Action) :
    Option (Heap × Nat) :=
  match untilTwoCallback (exec Heap.empty pre) p with
  | some r => some (exec r.1 post, r.2)
  | none => none

/-- Exactly one of the two slots of a tuple is non-null. -/
def exclusive (t : JSVal) : Bool :=
  (t.index 0).isNull != (t.index 1).isNull

/-- The value or reason a settled promise carries. -/
def PromiseState.payload : PromiseState → Option JSVal
  | .pending => none
  | .fulfilled v => some v
  | .rejected e => some e

/-- The invocation of the success continuation on `v`, made for the promise `m`. -/
def successCall (m : Nat) (v : JSVal) : Call :=
  { capability := m, kind := .fulfill, handler := onSuccess, argument := v,
    result := .ok (.array [v, .null]) }

/-- The invocation of the failure continuation on `e`, made for the promise `o`. -/
def failureCall (o : Nat) (e : JSVal) : Call :=
  { capability := o, kind := .reject, handler := onFailure, argument := e,
    result := .ok (.array [.null, e]) }

/-- Two uses of `until` on one event loop: `pre`, `until` on `p`, `mid`, `until` on
`q`, `post`.  The result is the final heap and the two returned promises. -/
def session2 (pre : List Action) (p : Nat) (mid : List Action) (q : Nat) (post : List Action) :
    Option (Heap × Nat × Nat) :=
  match «until» (exec Heap.empty pre) p with
  | some r1 =>
      match «until» (exec r1.1 mid) q with
      | some r2 => some (exec r2.1 post, r1.2, r2.2)
      | none => none
  | none => none

/-- The number of promises that exist when the second call of `session2` is made:
after `pre`, the first call of `until` on `p`, and `mid`.  The second input may be
any of them, also one created in `mid` or one made by the first call. -/
def promisesAtSecondCall (pre : List Action) (p : Nat) (mid : List Action) : Nat :=
  match «until» (exec Heap.empty pre) p with
  | some r1 => (exec r1.1 mid).next
  | none => 0

/-- What a caller can see of a session: the state of the input and the state of the
returned promise. -/
def observe (r : Option (Heap × Nat)) (p : Nat) : Option (PromiseState × PromiseState) :=
  match r with
  | some x => some (x.1.stateOf p, x.1.stateOf x.2)
  | none => none

/-- The event loop runs `k` jobs and nothing else happens. -/
def drain (h : Heap) (k : Nat) : Heap :=
  exec h (List.replicate k Action.runJob)

/-! ## The state a `then` ends in -/

theorem thenState_reactionJob {c : Nat} {f g : Option Handler} {sp : PromiseState} {j : Job}
    (hr : reactionJob c f g sp = some j) :
    thenState f g sp = (j.reaction.run j.argument).toState := by
  cases sp with
  | pending => simp [reactionJob] at hr
  | fulfilled v =>
      simp only [reactionJob, Option.some.injEq] at hr
      rw [← hr]; rfl
  | rejected e =>
      simp only [reactionJob, Option.some.injEq] at hr
      rw [← hr]; rfl


/-! ## Well-formedness is kept -/

theorem WF_empty : WF Heap.empty := by
  constructor <;> simp [Heap.empty, PromiseRecord.fresh]

theorem WF_alloc (h : Heap) (root : Bool) (w : WF h) : WF (h.alloc root).1 := by
  constructor
  · intro i r hr
    simp only [Heap.alloc, Heap.set] at hr ⊢
    split at hr
    · simp [PromiseRecord.fresh] at hr
    · exact Nat.lt_succ_of_lt (w.fulfill i r hr)
  · intro i r hr
    simp only [Heap.alloc, Heap.set] at hr ⊢
    split at hr
    · simp [PromiseRecord.fresh] at hr
    · exact Nat.lt_succ_of_lt (w.reject i r hr)
  · intro j hj
    exact Nat.lt_succ_of_lt (w.jobs j hj)
  · intro x hx
    exact Nat.lt_succ_of_lt (w.calls x hx)

theorem WF_settlePromise (h : Heap) (p : Nat) (c : Completion) (w : WF h) :
    WF (settlePromise h p c) := by
  constructor
  · intro i r hr
    simp only [settlePromise, Heap.set] at hr ⊢
    split at hr
    · simp at hr
    · exact w.fulfill i r hr
  · intro i r hr
    simp only [settlePromise, Heap.set] at hr ⊢
    split at hr
    · simp at hr
    · exact w.reject i r hr
  · intro j hj
    simp only [settlePromise, Heap.set, List.mem_append, List.mem_map] at hj ⊢
    rcases hj with hj | ⟨r, hr, rfl⟩
    · exact w.jobs j hj
    · cases c with
      | ok v => exact w.fulfill p r hr
      | error e => exact w.reject p r hr
  · intro x hx
    exact w.calls x hx

theorem WF_resolvePromise (h : Heap) (p : Nat) (c : Completion) (w : WF h) :
    WF (resolvePromise h p c) := by
  unfold resolvePromise
  split
  · exact WF_settlePromise h p c w
  · exact w

theorem WF_performPromiseThen (h : Heap) (p : Nat) (f g : Option Handler) (cap : Nat)
    (hc : cap < h.next) (w : WF h) : WF (performPromiseThen h p f g cap) := by
  simp only [performPromiseThen]
  split
  · constructor
    · intro i r hr
      simp only [Heap.set] at hr ⊢
      split at hr
      · simp only [List.mem_append, List.mem_singleton] at hr
        rcases hr with hr | rfl
        · exact w.fulfill p r hr
        · exact hc
      · exact w.fulfill i r hr
    · intro i r hr
      simp only [Heap.set] at hr ⊢
      split at hr
      · simp only [List.mem_append, List.mem_singleton] at hr
        rcases hr with hr | rfl
        · exact w.reject p r hr
        · exact hc
      · exact w.reject i r hr
    · exact w.jobs
    · exact w.calls
  · constructor
    · exact w.fulfill
    · exact w.reject
    · intro j hj
      simp only [List.mem_append, List.mem_singleton] at hj
      rcases hj with hj | rfl
      · exact w.jobs j hj
      · exact hc
    · exact w.calls
  · constructor
    · exact w.fulfill
    · exact w.reject
    · intro j hj
      simp only [List.mem_append, List.mem_singleton] at hj
      rcases hj with hj | rfl
      · exact w.jobs j hj
      · exact hc
    · exact w.calls

theorem WF_promiseThen (h h1 : Heap) (p o : Nat) (f g : Option Handler) (w : WF h)
    (e : promiseThen h p f g = some (h1, o)) : WF h1 := by
  unfold promiseThen at e
  split at e
  · simp only [Option.some.injEq, Prod.mk.injEq] at e
    rw [← e.1]
    exact WF_performPromiseThen _ p f g _ (by simp [Heap.alloc]) (WF_alloc h false w)
  · simp at e

theorem Job_call_capability (j : Job) : ∀ x ∈ j.call, x.capability = j.reaction.capability := by
  intro x hx
  unfold Job.call at hx
  split at hx
  · simp only [List.mem_singleton] at hx
    rw [hx]
  · simp at hx

theorem WF_runJob (h : Heap) (w : WF h) : WF (runJob h) := by
  unfold runJob
  split
  · exact w
  · rename_i j rest hj
    have hjc : j.reaction.capability < h.next := w.jobs j (by simp [hj])
    have wrest : ∀ x ∈ rest, x.reaction.capability < h.next :=
      fun x hx => w.jobs x (by simp [hj, hx])
    unfold promiseReactionJob
    apply WF_resolvePromise
    refine ⟨w.fulfill, w.reject, wrest, ?_⟩
    intro x hx
    simp only [List.mem_append] at hx
    rcases hx with hx | hx
    · exact w.calls x hx
    · rw [Job_call_capability j x hx]; exact hjc

theorem WF_step (h : Heap) (a : Action) (w : WF h) : WF (step h a) := by
  cases a with
  | newPromise => exact WF_alloc h true w
  | resolve p v =>
      simp only [step]
      split
      · exact WF_resolvePromise h p _ w
      · exact w
  | reject p e =>
      simp only [step]
      split
      · exact WF_resolvePromise h p _ w
      · exact w
  | thenCall p f g =>
      simp only [step]
      split
      · rename_i r hr
        exact WF_promiseThen h r.1 p r.2 f g w hr
      · exact w
  | runJob => exact WF_runJob h w

theorem WF_exec (as : List Action) : ∀ h : Heap, WF h → WF (exec h as) := by
  induction as with
  | nil => intro h w; exact w
  | cons a as ih => intro h w; exact ih (step h a) (WF_step h a w)

/-! ## The `then` invariant is kept -/

theorem filter_jobs_map (L : List Reaction) (arg : JSVal) (c : Nat) :
    (L.map (fun x => ({ reaction := x, argument := arg } : Job))).filter
        (fun j => j.reaction.capability == c)
      = (L.filter (fun r => r.capability == c)).map
          (fun x => ({ reaction := x, argument := arg } : Job)) := by
  induction L with
  | nil => rfl
  | cons x xs ih =>
      by_cases hx : x.capability = c
      · simp [List.filter_cons, hx, ih]
      · simp [List.filter_cons, hx, ih]

theorem filter_reactions_nil (L : List Reaction) (c : Nat)
    (hL : ∀ r ∈ L, r.capability ≠ c) : L.filter (fun r => r.capability == c) = [] := by
  rw [List.filter_eq_nil_iff]
  intro r hr
  simpa using hL r hr

theorem expectReactions_toState (r : Reaction) (k : Completion) :
    expectReactions r k.toState = [] := by
  cases k <;> rfl

theorem Derived_pending_of_pending {h : Heap} {p c : Nat} {f g : Option Handler}
    (d : Derived h p c f g) (hp : h.stateOf p = .pending) : h.stateOf c = .pending := by
  rcases d.state with hs | hs
  · exact hs
  · rw [hs, hp]; rfl

theorem Derived_alloc {h : Heap} {p c : Nat} {f g : Option Handler} (root : Bool)
    (d : Derived h p c f g) : Derived (h.alloc root).1 p c f g := by
  have hp : p ≠ h.next := Nat.ne_of_lt d.p_lt
  have hc : c ≠ h.next := Nat.ne_of_lt d.c_lt
  have ep : (h.alloc root).1.promises p = h.promises p := by simp [Heap.alloc, Heap.set, hp]
  have ec : (h.alloc root).1.promises c = h.promises c := by simp [Heap.alloc, Heap.set, hc]
  have sp : (h.alloc root).1.stateOf p = h.stateOf p := by simp [Heap.stateOf, ep]
  have sc : (h.alloc root).1.stateOf c = h.stateOf c := by simp [Heap.stateOf, ec]
  refine ⟨Nat.lt_succ_of_lt d.p_lt, Nat.lt_succ_of_lt d.c_lt, d.ne, ?_, ?_, ?_, ?_, ?_, ?_, ?_, ?_⟩
  · rw [ec]; exact d.not_root
  · intro i hi r hr
    simp only [Heap.alloc, Heap.set] at hr
    split at hr
    · simp [PromiseRecord.fresh] at hr
    · exact d.others_f i hi r hr
  · intro i hi r hr
    simp only [Heap.alloc, Heap.set] at hr
    split at hr
    · simp [PromiseRecord.fresh] at hr
    · exact d.others_r i hi r hr
  · rw [ep, sp]; exact d.own_f
  · rw [ep, sp]; exact d.own_r
  · rw [sp, sc]; exact d.jobs
  · rw [sp, sc]; exact d.calls
  · rw [sp, sc]; exact d.state

theorem Derived_performPromiseThen {h : Heap} {p c : Nat} {f g : Option Handler}
    (q : Nat) (f1 g1 : Option Handler) (cap : Nat) (hcap : cap ≠ c)
    (d : Derived h p c f g) : Derived (performPromiseThen h q f1 g1 cap) p c f g := by
  simp only [performPromiseThen]
  split
  · rename_i hq
    have sAll : ∀ i, (h.set q { h.promises q with
          fulfillReactions := (h.promises q).fulfillReactions ++
            [{ capability := cap, kind := .fulfill, handler := f1 }],
          rejectReactions := (h.promises q).rejectReactions ++
            [{ capability := cap, kind := .reject, handler := g1 }] }).stateOf i
          = h.stateOf i := by
      intro i
      simp only [Heap.set, Heap.stateOf]
      split
      · rename_i hi; rw [hi]
      · rfl
    refine ⟨d.p_lt, d.c_lt, d.ne, ?_, ?_, ?_, ?_, ?_, ?_, ?_, ?_⟩
    · simp only [Heap.set]
      split
      · rename_i hi; rw [← hi]; exact d.not_root
      · exact d.not_root
    · intro i hi r hr
      simp only [Heap.set] at hr
      split at hr
      · rename_i hiq
        simp only [List.mem_append, List.mem_singleton] at hr
        rcases hr with hr | rfl
        · exact d.others_f q (hiq ▸ hi) r hr
        · exact hcap
      · exact d.others_f i hi r hr
    · intro i hi r hr
      simp only [Heap.set] at hr
      split at hr
      · rename_i hiq
        simp only [List.mem_append, List.mem_singleton] at hr
        rcases hr with hr | rfl
        · exact d.others_r q (hiq ▸ hi) r hr
        · exact hcap
      · exact d.others_r i hi r hr
    · rw [sAll]
      simp only [Heap.set]
      split
      · rename_i hpq
        simp only [List.filter_append, List.filter_cons, List.filter_nil, beq_iff_eq, hcap,
          if_false, List.append_nil]
        rw [← hpq]; exact d.own_f
      · exact d.own_f
    · rw [sAll]
      simp only [Heap.set]
      split
      · rename_i hpq
        simp only [List.filter_append, List.filter_cons, List.filter_nil, beq_iff_eq, hcap,
          if_false, List.append_nil]
        rw [← hpq]; exact d.own_r
      · exact d.own_r
    · rw [sAll, sAll]; exact d.jobs
    · rw [sAll, sAll]; exact d.calls
    · rw [sAll, sAll]; exact d.state
  · refine ⟨d.p_lt, d.c_lt, d.ne, d.not_root, d.others_f, d.others_r, d.own_f, d.own_r, ?_,
      d.calls, d.state⟩
    simp only [List.filter_append, List.filter_cons, List.filter_nil, beq_iff_eq, hcap,
      if_false, List.append_nil]
    exact d.jobs
  · refine ⟨d.p_lt, d.c_lt, d.ne, d.not_root, d.others_f, d.others_r, d.own_f, d.own_r, ?_,
      d.calls, d.state⟩
    simp only [List.filter_append, List.filter_cons, List.filter_nil, beq_iff_eq, hcap,
      if_false, List.append_nil]
    exact d.jobs

theorem Derived_promiseThen {h h1 : Heap} {p c : Nat} {f g : Option Handler}
    (q o : Nat) (f1 g1 : Option Handler) (d : Derived h p c f g)
    (e : promiseThen h q f1 g1 = some (h1, o)) : Derived h1 p c f g := by
  unfold promiseThen at e
  split at e
  · simp only [Option.some.injEq, Prod.mk.injEq] at e
    rw [← e.1]
    exact Derived_performPromiseThen q f1 g1 _ (Nat.ne_of_gt d.c_lt) (Derived_alloc false d)
  · simp at e

theorem settlePromise_promises (h : Heap) (q : Nat) (k : Completion) (i : Nat) :
    (settlePromise h q k).promises i
      = if i = q then { h.promises q with state := k.toState, fulfillReactions := [],
                                           rejectReactions := [] }
        else h.promises i := rfl

theorem settlePromise_stateOf_ne (h : Heap) (q : Nat) (k : Completion) (i : Nat) (hi : i ≠ q) :
    (settlePromise h q k).stateOf i = h.stateOf i := by
  simp [Heap.stateOf, settlePromise_promises, hi]

theorem settlePromise_stateOf_self (h : Heap) (q : Nat) (k : Completion) :
    (settlePromise h q k).stateOf q = k.toState := by
  simp [Heap.stateOf, settlePromise_promises]

theorem settlePromise_jobs_filter (h : Heap) (q : Nat) (k : Completion) (c : Nat) :
    (settlePromise h q k).jobs.filter (fun j => j.reaction.capability == c)
      = h.jobs.filter (fun j => j.reaction.capability == c) ++
          match k with
          | .ok v => ((h.promises q).fulfillReactions.filter (fun r => r.capability == c)).map
                        (fun x => ({ reaction := x, argument := v } : Job))
          | .error e => ((h.promises q).rejectReactions.filter (fun r => r.capability == c)).map
                        (fun x => ({ reaction := x, argument := e } : Job)) := by
  cases k with
  | ok v => simp only [settlePromise, Heap.set, List.filter_append, filter_jobs_map]
  | error e => simp only [settlePromise, Heap.set, List.filter_append, filter_jobs_map]

/-- Settling a pending promise other than the derived one keeps the invariant. -/
theorem Derived_settle_other {h : Heap} {p c : Nat} {f g : Option Handler}
    (q : Nat) (k : Completion) (hq : q ≠ c) (hpend : h.stateOf q = .pending)
    (d : Derived h p c f g) : Derived (settlePromise h q k) p c f g := by
  have sc : (settlePromise h q k).stateOf c = h.stateOf c :=
    settlePromise_stateOf_ne h q k c (Ne.symm hq)
  have ec : (settlePromise h q k).promises c = h.promises c := by
    simp [settlePromise_promises, Ne.symm hq]
  by_cases hqp : q = p
  · subst hqp
    have cpend : h.stateOf c = .pending := Derived_pending_of_pending d hpend
    have sp : (settlePromise h q k).stateOf q = k.toState := settlePromise_stateOf_self h q k
    refine ⟨d.p_lt, d.c_lt, d.ne, ?_, ?_, ?_, ?_, ?_, ?_, ?_, ?_⟩
    · rw [ec]; exact d.not_root
    · intro i hi r hr
      rw [settlePromise_promises, if_neg hi] at hr
      exact d.others_f i hi r hr
    · intro i hi r hr
      rw [settlePromise_promises, if_neg hi] at hr
      exact d.others_r i hi r hr
    · rw [sp, expectReactions_toState]; simp [settlePromise_promises]
    · rw [sp, expectReactions_toState]; simp [settlePromise_promises]
    · rw [settlePromise_jobs_filter, sp, sc, cpend, d.jobs, d.own_f, d.own_r, hpend, cpend]
      cases k <;> rfl
    · rw [sp, sc, cpend]
      have := d.calls
      rw [cpend] at this
      exact this
    · left; rw [sc]; exact cpend
  · have sp : (settlePromise h q k).stateOf p = h.stateOf p :=
      settlePromise_stateOf_ne h q k p (Ne.symm hqp)
    have ep : (settlePromise h q k).promises p = h.promises p := by
      simp [settlePromise_promises, Ne.symm hqp]
    refine ⟨d.p_lt, d.c_lt, d.ne, ?_, ?_, ?_, ?_, ?_, ?_, ?_, ?_⟩
    · rw [ec]; exact d.not_root
    · intro i hi r hr
      rw [settlePromise_promises] at hr
      split at hr
      · simp at hr
      · exact d.others_f i hi r hr
    · intro i hi r hr
      rw [settlePromise_promises] at hr
      split at hr
      · simp at hr
      · exact d.others_r i hi r hr
    · rw [ep, sp]; exact d.own_f
    · rw [ep, sp]; exact d.own_r
    · rw [settlePromise_jobs_filter, sp, sc, d.jobs,
        filter_reactions_nil _ c (d.others_f q hqp), filter_reactions_nil _ c (d.others_r q hqp)]
      cases k <;> simp
    · rw [sp, sc]; exact d.calls
    · rw [sp, sc]; exact d.state

theorem Derived_resolve_other {h : Heap} {p c : Nat} {f g : Option Handler}
    (q : Nat) (k : Completion) (hq : q ≠ c)
    (d : Derived h p c f g) : Derived (resolvePromise h q k) p c f g := by
  unfold resolvePromise
  split
  · rename_i hpend
    exact Derived_settle_other q k hq hpend d
  · exact d

theorem filter_calls_nil (j : Job) (c : Nat) (hj : j.reaction.capability ≠ c) :
    j.call.filter (fun x => x.capability == c) = [] := by
  rw [List.filter_eq_nil_iff]
  intro x hx
  rw [Job_call_capability j x hx]
  simpa using hj

theorem filter_calls_self (j : Job) :
    j.call.filter (fun x => x.capability == j.reaction.capability) = j.call := by
  rw [List.filter_eq_self]
  intro x hx
  rw [Job_call_capability j x hx]
  simp

/-- Running a job for another promise keeps the invariant. -/
theorem Derived_run_other {h : Heap} {p c : Nat} {f g : Option Handler}
    (j : Job) (rest : List Job) (hj : h.jobs = j :: rest) (hjc : j.reaction.capability ≠ c)
    (d : Derived h p c f g) : Derived (promiseReactionJob { h with jobs := rest } j) p c f g := by
  unfold promiseReactionJob
  apply Derived_resolve_other _ _ hjc
  refine ⟨d.p_lt, d.c_lt, d.ne, d.not_root, d.others_f, d.others_r, d.own_f, d.own_r, ?_, ?_,
    d.state⟩
  · have hf := d.jobs
    rw [hj, List.filter_cons_of_neg (by simpa using hjc)] at hf
    exact hf
  · show (h.calls ++ j.call).filter _ = _
    rw [List.filter_append, filter_calls_nil j c hjc, List.append_nil]
    exact d.calls

/-- The job of the derived promise is in the queue only while the derived promise
is pending and the promise it was derived from is settled. -/
theorem Derived_front_job {h : Heap} {p c : Nat} {f g : Option Handler}
    (d : Derived h p c f g) (j : Job) (rest : List Job) (hj : h.jobs = j :: rest)
    (hjc : j.reaction.capability = c) :
    h.stateOf c = .pending ∧ reactionJob c f g (h.stateOf p) = some j ∧
      rest.filter (fun x => x.reaction.capability == c) = [] := by
  have hf := d.jobs
  rw [hj, List.filter_cons_of_pos (by simpa using hjc)] at hf
  unfold expectJobs at hf
  split at hf
  · rename_i hsc
    cases hr : reactionJob c f g (h.stateOf p) with
    | none => rw [hr] at hf; simp at hf
    | some j1 =>
        rw [hr] at hf
        simp only [Option.toList, List.cons.injEq] at hf
        exact ⟨hsc, by rw [hf.1], hf.2⟩
  · simp at hf

/-- Running the job of the derived promise settles it as `thenState` says. -/
theorem Derived_run_own {h : Heap} {p c : Nat} {f g : Option Handler}
    (j : Job) (rest : List Job) (hj : h.jobs = j :: rest) (hjc : j.reaction.capability = c)
    (d : Derived h p c f g) : Derived (promiseReactionJob { h with jobs := rest } j) p c f g := by
  obtain ⟨hsc, hr, hrest⟩ := Derived_front_job d j rest hj hjc
  have hcp : c ≠ p := Ne.symm d.ne
  have hpend : ({ h with jobs := rest, calls := h.calls ++ j.call } : Heap).promises c
      = h.promises c := rfl
  unfold promiseReactionJob resolvePromise
  rw [hjc]
  have hsc1 : (h.promises c).state = .pending := hsc
  simp only [hsc1]
  have sp : (settlePromise { h with jobs := rest, calls := h.calls ++ j.call } c
      (j.reaction.run j.argument)).stateOf p = h.stateOf p := by
    rw [settlePromise_stateOf_ne _ _ _ _ d.ne]; rfl
  have sc : (settlePromise { h with jobs := rest, calls := h.calls ++ j.call } c
      (j.reaction.run j.argument)).stateOf c = (j.reaction.run j.argument).toState :=
    settlePromise_stateOf_self _ _ _
  refine ⟨d.p_lt, d.c_lt, d.ne, ?_, ?_, ?_, ?_, ?_, ?_, ?_, ?_⟩
  · simp only [settlePromise_promises, if_true]; exact d.not_root
  · intro i hi r hr1
    rw [settlePromise_promises] at hr1
    split at hr1
    · simp at hr1
    · exact d.others_f i hi r hr1
  · intro i hi r hr1
    rw [settlePromise_promises] at hr1
    split at hr1
    · simp at hr1
    · exact d.others_r i hi r hr1
  · rw [sp, settlePromise_promises, if_neg d.ne]; exact d.own_f
  · rw [sp, settlePromise_promises, if_neg d.ne]; exact d.own_r
  · rw [settlePromise_jobs_filter, sp, sc]
    show rest.filter _ ++ _ = _
    rw [hrest]
    have e1 := filter_reactions_nil _ c (d.others_f c hcp)
    have e2 := filter_reactions_nil _ c (d.others_r c hcp)
    have e3 : expectJobs c f g (h.stateOf p) (j.reaction.run j.argument).toState = [] := by
      cases j.reaction.run j.argument <;> rfl
    rw [e3]
    cases j.reaction.run j.argument with
    | ok v => simp only [List.nil_append]; rw [e1]; rfl
    | error e => simp only [List.nil_append]; rw [e2]; rfl
  · rw [sp, sc]
    show (h.calls ++ j.call).filter _ = _
    have hc0 := d.calls
    rw [hsc] at hc0
    rw [List.filter_append, hc0]
    have e3 : expectCalls c f g (h.stateOf p) (j.reaction.run j.argument).toState = j.call := by
      unfold expectCalls
      rw [hr]
      cases j.reaction.run j.argument <;> rfl
    rw [e3, ← hjc, filter_calls_self]
    rfl
  · right
    rw [sp, sc]
    exact (thenState_reactionJob hr).symm

theorem Derived_runJob {h : Heap} {p c : Nat} {f g : Option Handler}
    (d : Derived h p c f g) : Derived (runJob h) p c f g := by
  unfold runJob
  split
  · exact d
  · rename_i j rest hj
    by_cases hjc : j.reaction.capability = c
    · exact Derived_run_own j rest hj hjc d
    · exact Derived_run_other j rest hj hjc d

theorem Derived_step {h : Heap} {p c : Nat} {f g : Option Handler} (a : Action)
    (d : Derived h p c f g) : Derived (step h a) p c f g := by
  cases a with
  | newPromise => exact Derived_alloc true d
  | resolve q v =>
      simp only [step]
      split
      · rename_i hq
        refine Derived_resolve_other q _ ?_ d
        intro hqc
        rw [hqc, d.not_root] at hq
        simp at hq
      · exact d
  | reject q e =>
      simp only [step]
      split
      · rename_i hq
        refine Derived_resolve_other q _ ?_ d
        intro hqc
        rw [hqc, d.not_root] at hq
        simp at hq
      · exact d
  | thenCall q f1 g1 =>
      simp only [step]
      split
      · rename_i r hr
        exact Derived_promiseThen q r.2 f1 g1 d hr
      · exact d
  | runJob => exact Derived_runJob d

theorem Derived_exec {p c : Nat} {f g : Option Handler} (as : List Action) :
    ∀ h : Heap, Derived h p c f g → Derived (exec h as) p c f g := by
  induction as with
  | nil => intro h d; exact d
  | cons a as ih => intro h d; exact ih (step h a) (Derived_step a d)

/-! ## `then` establishes the invariant -/

theorem promiseThen_eq (h : Heap) (p : Nat) (f g : Option Handler) (hp : p < h.next) :
    promiseThen h p f g
      = some (performPromiseThen (h.alloc false).1 p f g h.next, h.next) := by
  unfold promiseThen
  rw [if_pos hp]
  rfl

theorem Derived_fresh (h : Heap) (p : Nat) (f g : Option Handler) (w : WF h)
    (hp : p < h.next) :
    Derived (performPromiseThen (h.alloc false).1 p f g h.next) p h.next f g := by
  have hpn : p ≠ h.next := Nat.ne_of_lt hp
  have ep : (h.alloc false).1.promises p = h.promises p := by simp [Heap.alloc, Heap.set, hpn]
  have ec : (h.alloc false).1.promises h.next = PromiseRecord.fresh false := by
    simp [Heap.alloc, Heap.set]
  have fnil : ∀ i, ((h.alloc false).1.promises i).fulfillReactions.filter
      (fun r => r.capability == h.next) = [] := by
    intro i
    apply filter_reactions_nil
    intro r hr
    simp only [Heap.alloc, Heap.set] at hr
    split at hr
    · simp [PromiseRecord.fresh] at hr
    · exact Nat.ne_of_lt (w.fulfill i r hr)
  have rnil : ∀ i, ((h.alloc false).1.promises i).rejectReactions.filter
      (fun r => r.capability == h.next) = [] := by
    intro i
    apply filter_reactions_nil
    intro r hr
    simp only [Heap.alloc, Heap.set] at hr
    split at hr
    · simp [PromiseRecord.fresh] at hr
    · exact Nat.ne_of_lt (w.reject i r hr)
  have jnil : (h.alloc false).1.jobs.filter (fun j => j.reaction.capability == h.next) = [] := by
    rw [List.filter_eq_nil_iff]
    intro j hj
    have := w.jobs j hj
    simp only [beq_iff_eq]
    omega
  have cnil : (h.alloc false).1.calls.filter (fun x => x.capability == h.next) = [] := by
    rw [List.filter_eq_nil_iff]
    intro x hx
    have := w.calls x hx
    simp only [beq_iff_eq]
    omega
  have fmem : ∀ i, ∀ r ∈ ((h.alloc false).1.promises i).fulfillReactions,
      r.capability ≠ h.next := by
    intro i r hr
    have := fnil i
    rw [List.filter_eq_nil_iff] at this
    simpa using this r hr
  have rmem : ∀ i, ∀ r ∈ ((h.alloc false).1.promises i).rejectReactions,
      r.capability ≠ h.next := by
    intro i r hr
    have := rnil i
    rw [List.filter_eq_nil_iff] at this
    simpa using this r hr
  simp only [performPromiseThen]
  split
  · rename_i hst
    have e1 : ∀ r : PromiseRecord, ((h.alloc false).1.set p r).promises p = r := by
      intro r; simp [Heap.set]
    have e2 : ∀ r : PromiseRecord, ∀ i, i ≠ p →
        ((h.alloc false).1.set p r).promises i = (h.alloc false).1.promises i := by
      intro r i hi; simp [Heap.set, hi]
    refine ⟨Nat.lt_succ_of_lt hp, Nat.lt_succ_self _, hpn, ?_, ?_, ?_, ?_, ?_, ?_, ?_, ?_⟩
    · rw [e2 _ _ (Ne.symm hpn), ec]; rfl
    · intro i hi r hr
      rw [e2 _ _ hi] at hr
      exact fmem i r hr
    · intro i hi r hr
      rw [e2 _ _ hi] at hr
      exact rmem i r hr
    · simp only [Heap.stateOf, e1, hst, List.filter_append, fnil p]
      simp [expectReactions]
    · simp only [Heap.stateOf, e1, hst, List.filter_append, rnil p]
      simp [expectReactions]
    · simp only [Heap.stateOf, e1, e2 _ _ (Ne.symm hpn), ec, hst]
      exact jnil
    · simp only [Heap.stateOf, e1, e2 _ _ (Ne.symm hpn), ec, hst]
      exact cnil
    · left
      simp only [Heap.stateOf, e2 _ _ (Ne.symm hpn), ec]
      rfl
  · rename_i v hst
    refine ⟨Nat.lt_succ_of_lt hp, Nat.lt_succ_self _, hpn, ?_, ?_, ?_, ?_, ?_, ?_, ?_, ?_⟩
    · show ((h.alloc false).1.promises h.next).root = false
      rw [ec]; rfl
    · intro i _ r hr; exact fmem i r hr
    · intro i _ r hr; exact rmem i r hr
    · show ((h.alloc false).1.promises p).fulfillReactions.filter _
        = expectReactions _ ((h.alloc false).1.promises p).state
      rw [hst, fnil p]; rfl
    · show ((h.alloc false).1.promises p).rejectReactions.filter _
        = expectReactions _ ((h.alloc false).1.promises p).state
      rw [hst, rnil p]; rfl
    · show ((h.alloc false).1.jobs ++ _).filter _
        = expectJobs _ _ _ ((h.alloc false).1.promises p).state
            ((h.alloc false).1.promises h.next).state
      rw [hst, ec, List.filter_append, jnil]
      simp [expectJobs, reactionJob, PromiseRecord.fresh]
    · show (h.alloc false).1.calls.filter _
        = expectCalls _ _ _ ((h.alloc false).1.promises p).state
            ((h.alloc false).1.promises h.next).state
      rw [hst, ec, cnil]; rfl
    · left
      show ((h.alloc false).1.promises h.next).state = _
      rw [ec]; rfl
  · rename_i v hst
    refine ⟨Nat.lt_succ_of_lt hp, Nat.lt_succ_self _, hpn, ?_, ?_, ?_, ?_, ?_, ?_, ?_, ?_⟩
    · show ((h.alloc false).1.promises h.next).root = false
      rw [ec]; rfl
    · intro i _ r hr; exact fmem i r hr
    · intro i _ r hr; exact rmem i r hr
    · show ((h.alloc false).1.promises p).fulfillReactions.filter _
        = expectReactions _ ((h.alloc false).1.promises p).state
      rw [hst, fnil p]; rfl
    · show ((h.alloc false).1.promises p).rejectReactions.filter _
        = expectReactions _ ((h.alloc false).1.promises p).state
      rw [hst, rnil p]; rfl
    · show ((h.alloc false).1.jobs ++ _).filter _
        = expectJobs _ _ _ ((h.alloc false).1.promises p).state
            ((h.alloc false).1.promises h.next).state
      rw [hst, ec, List.filter_append, jnil]
      simp [expectJobs, reactionJob, PromiseRecord.fresh]
    · show (h.alloc false).1.calls.filter _
        = expectCalls _ _ _ ((h.alloc false).1.promises p).state
            ((h.alloc false).1.promises h.next).state
      rw [hst, ec, cnil]; rfl
    · left
      show ((h.alloc false).1.promises h.next).state = _
      rw [ec]; rfl

/-- The heap after `p.then(f, g)`: the call succeeds on a promise of the heap, returns
the next free promise, and the returned promise is derived from `p`. -/
theorem promiseThen_spec (h : Heap) (p : Nat) (f g : Option Handler) (w : WF h)
    (hp : p < h.next) :
    ∃ h1, promiseThen h p f g = some (h1, h.next) ∧ h1.next = h.next + 1 ∧ WF h1 ∧
      Derived h1 p h.next f g ∧ h1 = step h (.thenCall p f g) := by
  refine ⟨performPromiseThen (h.alloc false).1 p f g h.next, promiseThen_eq h p f g hp, ?_,
    ?_, Derived_fresh h p f g w hp, ?_⟩
  · simp only [performPromiseThen]
    split <;> rfl
  · exact WF_promiseThen h _ p h.next f g w (promiseThen_eq h p f g hp)
  · simp only [step, promiseThen_eq h p f g hp]

/-! ## A settled promise stays as it is -/

theorem resolvePromise_stateOf (h : Heap) (q : Nat) (k : Completion) (i : Nat)
    (hi : h.stateOf i ≠ .pending) : (resolvePromise h q k).stateOf i = h.stateOf i := by
  unfold resolvePromise
  split
  · rename_i hq
    by_cases e : i = q
    · rw [e] at hi; exact absurd hq hi
    · exact settlePromise_stateOf_ne h q k i e
  · rfl

theorem resolvePromise_next (h : Heap) (q : Nat) (k : Completion) :
    (resolvePromise h q k).next = h.next := by
  unfold resolvePromise
  split <;> rfl

theorem resolvePromise_jobs (h : Heap) (q : Nat) (k : Completion) :
    ∃ extra, (resolvePromise h q k).jobs = h.jobs ++ extra := by
  unfold resolvePromise
  split
  · exact ⟨_, rfl⟩
  · exact ⟨[], by simp⟩

theorem performPromiseThen_stateOf (h : Heap) (q : Nat) (f g : Option Handler) (cap i : Nat) :
    (performPromiseThen h q f g cap).stateOf i = h.stateOf i := by
  simp only [performPromiseThen]
  split
  · simp only [Heap.set, Heap.stateOf]
    split
    · rename_i e; rw [e]
    · rfl
  · rfl
  · rfl

theorem performPromiseThen_next (h : Heap) (q : Nat) (f g : Option Handler) (cap : Nat) :
    (performPromiseThen h q f g cap).next = h.next := by
  simp only [performPromiseThen]
  split <;> rfl

theorem alloc_stateOf (h : Heap) (root : Bool) (i : Nat) (hi : i < h.next) :
    (h.alloc root).1.stateOf i = h.stateOf i := by
  simp [Heap.alloc, Heap.set, Heap.stateOf, Nat.ne_of_lt hi]

theorem runJob_next (h : Heap) : (runJob h).next = h.next := by
  unfold runJob
  split
  · rfl
  · unfold promiseReactionJob
    rw [resolvePromise_next]

theorem step_next_le (h : Heap) (a : Action) : h.next ≤ (step h a).next := by
  cases a with
  | newPromise => simp [step, Heap.alloc]
  | resolve q v =>
      simp only [step]
      split
      · rw [resolvePromise_next]
      · exact Nat.le_refl _
  | reject q e =>
      simp only [step]
      split
      · rw [resolvePromise_next]
      · exact Nat.le_refl _
  | thenCall q f g =>
      simp only [step, promiseThen]
      split
      · rename_i r hr
        split at hr
        · simp only [Option.some.injEq] at hr
          rw [← hr, performPromiseThen_next]
          simp [Heap.alloc]
        · simp at hr
      · exact Nat.le_refl _
  | runJob => rw [step, runJob_next]

/-- Settlement is final: no action changes the state of a settled promise. -/
theorem step_stateOf (h : Heap) (a : Action) (i : Nat) (hi : i < h.next)
    (hs : h.stateOf i ≠ .pending) : (step h a).stateOf i = h.stateOf i := by
  cases a with
  | newPromise => exact alloc_stateOf h true i hi
  | resolve q v =>
      simp only [step]
      split
      · exact resolvePromise_stateOf h q _ i hs
      · rfl
  | reject q e =>
      simp only [step]
      split
      · exact resolvePromise_stateOf h q _ i hs
      · rfl
  | thenCall q f g =>
      simp only [step, promiseThen]
      split
      · rename_i r hr
        split at hr
        · simp only [Option.some.injEq] at hr
          rw [← hr, performPromiseThen_stateOf]
          exact alloc_stateOf h false i hi
        · simp at hr
      · rfl
  | runJob =>
      simp only [step, runJob]
      split
      · rfl
      · unfold promiseReactionJob
        exact resolvePromise_stateOf _ _ _ i hs

theorem exec_stateOf (as : List Action) : ∀ (h : Heap) (i : Nat), i < h.next →
    h.stateOf i ≠ .pending → (exec h as).stateOf i = h.stateOf i := by
  induction as with
  | nil => intro h i _ _; rfl
  | cons a as ih =>
      intro h i hi hs
      have e := step_stateOf h a i hi hs
      have := ih (step h a) i (Nat.lt_of_lt_of_le hi (step_next_le h a)) (by rw [e]; exact hs)
      rw [← e, ← this]
      rfl

theorem exec_append (h : Heap) (as bs : List Action) :
    exec h (as ++ bs) = exec (exec h as) bs := by
  simp [exec, List.foldl_append]

/-! ## The job of a derived promise gets run -/

theorem toState_ne_pending (k : Completion) : k.toState ≠ .pending := by
  cases k <;> simp [Completion.toState]

theorem thenState_ne_pending (f g : Option Handler) (sp : PromiseState)
    (hs : sp ≠ .pending) : thenState f g sp ≠ .pending := by
  cases sp with
  | pending => exact absurd rfl hs
  | fulfilled v => exact toState_ne_pending _
  | rejected e => exact toState_ne_pending _

theorem Derived_settled_eq {h : Heap} {p c : Nat} {f g : Option Handler}
    (d : Derived h p c f g) (hs : h.stateOf c ≠ .pending) :
    h.stateOf c = thenState f g (h.stateOf p) := by
  rcases d.state with e | e
  · exact absurd e hs
  · exact e

/-- With an empty job queue, the derived promise of a settled promise is settled. -/
theorem Derived_quiescent {h : Heap} {p c : Nat} {f g : Option Handler}
    (d : Derived h p c f g) (hq : h.jobs = []) :
    h.stateOf c = thenState f g (h.stateOf p) := by
  rcases d.state with e | e
  · have hj := d.jobs
    rw [hq, e] at hj
    rw [e]
    cases hp : h.stateOf p with
    | pending => rfl
    | fulfilled v => rw [hp] at hj; simp [expectJobs, reactionJob] at hj
    | rejected v => rw [hp] at hj; simp [expectJobs, reactionJob] at hj
  · exact e

theorem Derived_progress_aux {p c : Nat} {f g : Option Handler} (j : Job)
    (hjc : j.reaction.capability = c) :
    ∀ (l1 l2 : List Job) (h : Heap), Derived h p c f g → h.jobs = l1 ++ j :: l2 →
      ∃ n, (exec h (List.replicate n Action.runJob)).stateOf c ≠ .pending := by
  have own : ∀ (x : Job) (rest : List Job) (h : Heap), Derived h p c f g →
      h.jobs = x :: rest → x.reaction.capability = c →
      (exec h (List.replicate 1 Action.runJob)).stateOf c ≠ .pending := by
    intro x rest h d hj hxc
    obtain ⟨hsc, _, _⟩ := Derived_front_job d x rest hj hxc
    have e : exec h (List.replicate 1 Action.runJob) = promiseReactionJob { h with jobs := rest } x := by
      simp [exec, step, runJob, hj]
    rw [e]
    unfold promiseReactionJob resolvePromise
    rw [hxc]
    have hsc1 : (h.promises c).state = .pending := hsc
    simp only [hsc1]
    rw [settlePromise_stateOf_self]
    exact toState_ne_pending _
  intro l1
  induction l1 with
  | nil =>
      intro l2 h d hj
      exact ⟨1, own j l2 h d hj hjc⟩
  | cons x l1 ih =>
      intro l2 h d hj
      by_cases hxc : x.reaction.capability = c
      · exact ⟨1, own x _ h d hj hxc⟩
      · have hr : runJob h = promiseReactionJob { h with jobs := l1 ++ j :: l2 } x := by
          simp [runJob, hj]
        obtain ⟨extra, he⟩ := resolvePromise_jobs
          { h with jobs := l1 ++ j :: l2, calls := h.calls ++ x.call } x.reaction.capability
          (x.reaction.run x.argument)
        have hjobs : (runJob h).jobs = l1 ++ j :: (l2 ++ extra) := by
          rw [hr]
          unfold promiseReactionJob
          rw [he]
          simp
        obtain ⟨n, hn⟩ := ih (l2 ++ extra) (runJob h) (Derived_runJob d) hjobs
        refine ⟨n + 1, ?_⟩
        have : exec h (List.replicate (n + 1) Action.runJob)
            = exec (runJob h) (List.replicate n Action.runJob) := by
          simp [exec, List.replicate_succ, step]
        rw [this]
        exact hn

/-- Once `p` is settled, running enough jobs settles the promise derived from it. -/
theorem Derived_settles {h : Heap} {p c : Nat} {f g : Option Handler}
    (d : Derived h p c f g) (hp : h.stateOf p ≠ .pending) :
    ∃ n, (exec h (List.replicate n Action.runJob)).stateOf c ≠ .pending := by
  by_cases hc : h.stateOf c = .pending
  · have hj := d.jobs
    rw [hc] at hj
    cases hr : reactionJob c f g (h.stateOf p) with
    | none =>
        cases hsp : h.stateOf p with
        | pending => exact absurd hsp hp
        | fulfilled v => rw [hsp] at hr; simp [reactionJob] at hr
        | rejected v => rw [hsp] at hr; simp [reactionJob] at hr
    | some j =>
        have hjc : j.reaction.capability = c := by
          cases hsp : h.stateOf p with
          | pending => exact absurd hsp hp
          | fulfilled v =>
              rw [hsp] at hr
              simp only [reactionJob, Option.some.injEq] at hr
              rw [← hr]
          | rejected v =>
              rw [hsp] at hr
              simp only [reactionJob, Option.some.injEq] at hr
              rw [← hr]
        have hmem : j ∈ h.jobs := by
          have : j ∈ h.jobs.filter (fun x => x.reaction.capability == c) := by
            rw [hj, expectJobs, hr]; simp
          exact (List.mem_filter.mp this).1
        obtain ⟨l1, l2, hl⟩ := List.append_of_mem hmem
        exact Derived_progress_aux j hjc l1 l2 h d hl
  · exact ⟨0, hc⟩

/-! ## `until` -/

theorem untilState_pending : untilState .pending = .pending := rfl

theorem untilState_fulfilled (v : JSVal) :
    untilState (.fulfilled v) = .fulfilled (.array [v, .null]) := rfl

theorem untilState_rejected (e : JSVal) :
    untilState (.rejected e) = .fulfilled (.array [.null, e]) := rfl

theorem twoCallback_state (sp : PromiseState) :
    thenState (some onSuccess) (some onFailure) sp = untilState sp := by
  cases sp <;> rfl

/-- The call `until(p)` on a promise of the heap succeeds, returns the second of two
new promises, and is the two calls `p.then(onSuccess)` and `.catch(onFailure)`. -/
theorem until_spec (h : Heap) (p : Nat) (w : WF h) (hp : p < h.next) :
    ∃ h2, «until» h p = some (h2, h.next + 1) ∧ WF h2 ∧ Adapted h2 p h.next (h.next + 1) ∧
      h2 = exec h [.thenCall p (some onSuccess) none, .thenCall h.next none (some onFailure)] := by
  obtain ⟨h1, e1, n1, w1, d1, s1⟩ := promiseThen_spec h p (some onSuccess) none w hp
  obtain ⟨h2, e2, _, w2, d2, s2⟩ :=
    promiseThen_spec h1 h.next none (some onFailure) w1 (by rw [n1]; exact Nat.lt_succ_self _)
  rw [n1] at e2 d2
  refine ⟨h2, ?_, w2, ⟨Derived_promiseThen _ _ _ _ d1 e2, d2⟩, ?_⟩
  · simp only [«until», e1, promiseCatch, e2]
  · rw [s2, s1]; rfl

theorem Adapted_exec {p m o : Nat} (as : List Action) (h : Heap) (a : Adapted h p m o) :
    Adapted (exec h as) p m o :=
  ⟨Derived_exec as h a.first, Derived_exec as h a.second⟩

/-- The result is pending or what `untilState` says. -/
theorem Adapted_state {h : Heap} {p m o : Nat} (a : Adapted h p m o) :
    h.stateOf o = .pending ∨ h.stateOf o = untilState (h.stateOf p) := by
  rcases a.second.state with e | e
  · exact Or.inl e
  · rcases a.first.state with e1 | e1
    · left; rw [e, e1]; rfl
    · right; rw [e, e1]; rfl

theorem Adapted_settled_eq {h : Heap} {p m o : Nat} (a : Adapted h p m o)
    (hs : h.stateOf o ≠ .pending) : h.stateOf o = untilState (h.stateOf p) := by
  rcases Adapted_state a with e | e
  · exact absurd e hs
  · exact e

theorem untilState_ne_pending (sp : PromiseState) (hs : sp ≠ .pending) :
    untilState sp ≠ .pending :=
  thenState_ne_pending _ _ _ (thenState_ne_pending _ _ _ hs)

theorem Adapted_input_settled {h : Heap} {p m o : Nat} (a : Adapted h p m o)
    (hs : h.stateOf o ≠ .pending) : h.stateOf p ≠ .pending := by
  intro hp
  have := Adapted_settled_eq a hs
  rw [hp] at this
  exact hs this

theorem Adapted_quiescent {h : Heap} {p m o : Nat} (a : Adapted h p m o) (hq : h.jobs = []) :
    h.stateOf o = untilState (h.stateOf p) := by
  rw [Derived_quiescent a.second hq, Derived_quiescent a.first hq]
  rfl

/-- Once the input is settled, the result is settled after enough jobs, and stays so. -/
theorem Adapted_progress {h : Heap} {p m o : Nat} (a : Adapted h p m o)
    (hp : h.stateOf p ≠ .pending) :
    ∃ n, ∀ k, n ≤ k → (drain h k).stateOf o = untilState (h.stateOf p) := by
  obtain ⟨n1, h1⟩ := Derived_settles a.first hp
  have a1 := Adapted_exec (List.replicate n1 Action.runJob) h a
  obtain ⟨n2, h2⟩ := Derived_settles a1.second h1
  refine ⟨n1 + n2, ?_⟩
  intro k hk
  obtain ⟨d, rfl⟩ := Nat.exists_eq_add_of_le hk
  have e : drain h (n1 + n2 + d)
      = exec (exec (exec h (List.replicate n1 Action.runJob)) (List.replicate n2 Action.runJob))
          (List.replicate d Action.runJob) := by
    unfold drain
    rw [List.replicate_add, List.replicate_add, exec_append, exec_append]
  have a2 := Adapted_exec (List.replicate n2 Action.runJob) _ a1
  have a3 := Adapted_exec (List.replicate d Action.runJob) _ a2
  have so : (drain h (n1 + n2 + d)).stateOf o ≠ .pending := by
    rw [e, exec_stateOf _ _ o a2.second.c_lt h2]
    exact h2
  have sp : (drain h (n1 + n2 + d)).stateOf p = h.stateOf p :=
    exec_stateOf _ h p a.first.p_lt hp
  rw [e] at so sp ⊢
  rw [Adapted_settled_eq a3 so, sp]

/-- The calls of the success continuation: none until `m` is settled, then one if
the input was fulfilled and none if it was rejected. -/
theorem Adapted_success_calls {h : Heap} {p m o : Nat} (a : Adapted h p m o) :
    h.callsFor m = expectCalls m (some onSuccess) none (h.stateOf p) (h.stateOf m) :=
  a.first.calls

theorem Adapted_failure_calls {h : Heap} {p m o : Nat} (a : Adapted h p m o) :
    h.callsFor o = expectCalls o none (some onFailure) (h.stateOf m) (h.stateOf o) :=
  a.second.calls

/-- Every use of `until` on a promise of the heap goes through, and the invariant of
the invocation holds in the final heap. -/
theorem session_spec (pre : List Action) (p : Nat) (post : List Action)
    (hp : p < (exec Heap.empty pre).next) :
    ∃ s, session pre p post = some (s, (exec Heap.empty pre).next + 1) ∧
      Adapted s p (exec Heap.empty pre).next ((exec Heap.empty pre).next + 1) := by
  obtain ⟨h2, e, _, a, _⟩ := until_spec (exec Heap.empty pre) p (WF_exec pre _ WF_empty) hp
  exact ⟨exec h2 post, by simp only [session, e], Adapted_exec post h2 a⟩

theorem exec_next_le (as : List Action) : ∀ h : Heap, h.next ≤ (exec h as).next := by
  induction as with
  | nil => intro h; exact Nat.le_refl _
  | cons a as ih => intro h; exact Nat.le_trans (step_next_le h a) (ih (step h a))

/-- While the input is fulfilled: the failure continuation has not run and the
success continuation has run at most once, on the input's value. -/
theorem Adapted_calls_fulfilled {h : Heap} {p m o : Nat} (a : Adapted h p m o) (v : JSVal)
    (hp : h.stateOf p = .fulfilled v) :
    h.callsFor o = [] ∧ (h.callsFor m = [] ∨ h.callsFor m = [successCall m v]) ∧
      (h.stateOf o ≠ .pending → h.callsFor m = [successCall m v]) := by
  have cm := Adapted_success_calls a
  have co := Adapted_failure_calls a
  rw [hp] at cm
  rcases a.first.state with em | em
  · have eo := Derived_pending_of_pending a.second em
    rw [em] at cm
    rw [em, eo] at co
    exact ⟨co, Or.inl cm, fun hn => absurd eo hn⟩
  · rw [hp] at em
    rw [em] at cm co
    have cm1 : h.callsFor m = [successCall m v] := cm
    have co1 : h.callsFor o = [] := by
      rw [co]
      cases h.stateOf o <;> rfl
    exact ⟨co1, Or.inr cm1, fun _ => cm1⟩

/-- While the input is rejected: the success continuation has not run and the
failure continuation has run at most once, on the input's reason. -/
theorem Adapted_calls_rejected {h : Heap} {p m o : Nat} (a : Adapted h p m o) (e : JSVal)
    (hp : h.stateOf p = .rejected e) :
    h.callsFor m = [] ∧ (h.callsFor o = [] ∨ h.callsFor o = [failureCall o e]) ∧
      (h.stateOf o ≠ .pending → h.callsFor o = [failureCall o e]) := by
  have cm := Adapted_success_calls a
  have co := Adapted_failure_calls a
  rw [hp] at cm
  have cm1 : h.callsFor m = [] := by
    rw [cm]
    cases h.stateOf m <;> rfl
  rcases a.first.state with em | em
  · have eo := Derived_pending_of_pending a.second em
    rw [em, eo] at co
    exact ⟨cm1, Or.inl co, fun hn => absurd eo hn⟩
  · rw [hp] at em
    rw [em] at co
    refine ⟨cm1, ?_, ?_⟩
    · cases ho : h.stateOf o with
      | pending => rw [ho] at co; exact Or.inl co
      | fulfilled t => rw [ho] at co; exact Or.inr co
      | rejected t => rw [ho] at co; exact Or.inr co
    · intro hn
      cases ho : h.stateOf o with
      | pending => exact absurd ho hn
      | fulfilled t => rw [ho] at co; exact co
      | rejected t => rw [ho] at co; exact co

/-- While the input is pending no continuation has run. -/
theorem Adapted_calls_pending {h : Heap} {p m o : Nat} (a : Adapted h p m o)
    (hp : h.stateOf p = .pending) : h.callsFor m = [] ∧ h.callsFor o = [] := by
  have em := Derived_pending_of_pending a.first hp
  have eo := Derived_pending_of_pending a.second em
  have cm := Adapted_success_calls a
  have co := Adapted_failure_calls a
  rw [hp, em] at cm
  rw [em, eo] at co
  exact ⟨cm, co⟩

/-- Progress of one `then`, with the state it reaches. -/
theorem Derived_progress {h : Heap} {p c : Nat} {f g : Option Handler}
    (d : Derived h p c f g) (hp : h.stateOf p ≠ .pending) :
    ∃ n, ∀ k, n ≤ k → (drain h k).stateOf c = thenState f g (h.stateOf p) := by
  obtain ⟨n1, h1⟩ := Derived_settles d hp
  refine ⟨n1, ?_⟩
  intro k hk
  obtain ⟨e, rfl⟩ := Nat.exists_eq_add_of_le hk
  have d1 := Derived_exec (List.replicate n1 Action.runJob) h d
  have d2 := Derived_exec (List.replicate e Action.runJob) _ d1
  have he : drain h (n1 + e)
      = exec (exec h (List.replicate n1 Action.runJob)) (List.replicate e Action.runJob) := by
    unfold drain
    rw [List.replicate_add, exec_append]
  have sc : (drain h (n1 + e)).stateOf c ≠ .pending := by
    rw [he, exec_stateOf _ _ c d1.c_lt h1]
    exact h1
  have sp : (drain h (n1 + e)).stateOf p = h.stateOf p := exec_stateOf _ h p d.p_lt hp
  rw [he] at sc sp ⊢
  rw [Derived_settled_eq d2 sc, sp]

theorem sessionTwoCallback_spec (pre : List Action) (p : Nat) (post : List Action)
    (hp : p < (exec Heap.empty pre).next) :
    ∃ s, sessionTwoCallback pre p post = some (s, (exec Heap.empty pre).next) ∧
      Derived s p (exec Heap.empty pre).next (some onSuccess) (some onFailure) := by
  obtain ⟨h1, e, _, _, d, _⟩ := promiseThen_spec (exec Heap.empty pre) p (some onSuccess)
    (some onFailure) (WF_exec pre _ WF_empty) hp
  exact ⟨exec h1 post, by simp only [sessionTwoCallback, untilTwoCallback, e],
    Derived_exec post h1 d⟩

theorem session2_spec (pre : List Action) (p : Nat) (mid : List Action) (q : Nat)
    (post : List Action) (hp : p < (exec Heap.empty pre).next)
    (hq : q < promisesAtSecondCall pre p mid) :
    ∃ s o1 o2, session2 pre p mid q post = some (s, o1, o2) ∧ o1 < o2 ∧
      (∃ m1, Adapted s p m1 o1) ∧ (∃ m2, Adapted s q m2 o2) := by
  obtain ⟨h1, e1, w1, a1, x1⟩ := until_spec (exec Heap.empty pre) p (WF_exec pre _ WF_empty) hp
  have hn1 : (exec Heap.empty pre).next + 1 < h1.next := a1.second.c_lt
  have hn2 : h1.next ≤ (exec h1 mid).next := exec_next_le mid h1
  have hq1 : q < (exec h1 mid).next := by
    simpa only [promisesAtSecondCall, e1] using hq
  obtain ⟨h2, e2, _, a2, x2⟩ := until_spec (exec h1 mid) q (WF_exec mid _ w1) hq1
  have a1x : Adapted h2 p (exec Heap.empty pre).next ((exec Heap.empty pre).next + 1) := by
    rw [x2]
    exact Adapted_exec _ _ (Adapted_exec mid h1 a1)
  refine ⟨exec h2 post, (exec Heap.empty pre).next + 1, (exec h1 mid).next + 1, ?_, by omega,
    ⟨(exec Heap.empty pre).next, Adapted_exec post h2 a1x⟩,
    ⟨(exec h1 mid).next, Adapted_exec post h2 a2⟩⟩
  simp only [session2, e1, e2]

theorem drain_add (h : Heap) (k n : Nat) : drain (drain h k) n = drain h (k + n) := by
  unfold drain
  rw [List.replicate_add, exec_append]

theorem isNull_eq_true (v : JSVal) (h : v.isNull = true) : v = .null := by
  cases v <;> simp [JSVal.isNull] at h ⊢

theorem settled_iff (st : PromiseState) : st.settled = true ↔ st ≠ .pending := by
  cases st <;> simp [PromiseState.settled]

theorem settled_false_iff (st : PromiseState) : st.settled = false ↔ st = .pending := by
  cases st <;> simp [PromiseState.settled]

/-! ## The scenarios of the specification -/

/-- The input resolves with `42`: the result resolves with `[42, null]`. -/
theorem scenario_resolves_42 :
    observe (session [Action.newPromise] 0
        [Action.resolve 0 (JSVal.num 42), Action.runJob, Action.runJob]) 0
      = some (.fulfilled (.num 42), .fulfilled (.array [.num 42, .null])) := rfl

/-- The input rejects with `Error("boom")`: the result resolves with
`[null, Error("boom")]`. -/
theorem scenario_rejects_boom :
    observe (session [Action.newPromise] 0
        [Action.reject 0 (JSVal.error "boom"), Action.runJob, Action.runJob]) 0
      = some (.rejected (.error "boom"), .fulfilled (.array [.null, .error "boom"])) := rfl

/-- The input resolves with `undefined`: the result resolves with `[undefined, null]`. -/
theorem scenario_resolves_undefined :
    observe (session [Action.newPromise] 0
        [Action.resolve 0 JSVal.undefined, Action.runJob, Action.runJob]) 0
      = some (.fulfilled .undefined, .fulfilled (.array [.undefined, .null])) := rfl

/-- An input that is already settled when `until` is called: the result is pending
until the two reaction jobs have run. -/
theorem scenario_settled_input :
    observe (session [Action.newPromise, Action.resolve 0 (JSVal.num 42)] 0 []) 0
      = some (.fulfilled (.num 42), .pending) ∧
    observe (session [Action.newPromise, Action.resolve 0 (JSVal.num 42)] 0
        [Action.runJob]) 0
      = some (.fulfilled (.num 42), .pending) ∧
    observe (session [Action.newPromise, Action.resolve 0 (JSVal.num 42)] 0
        [Action.runJob, Action.runJob]) 0
      = some (.fulfilled (.num 42), .fulfilled (.array [.num 42, .null])) :=
  ⟨rfl, rfl, rfl⟩

/-- An input made by `then` whose handler throws: the result carries what was thrown. -/
theorem scenario_derived_input :
    observe (session [Action.newPromise, Action.thenCall 0 (some (fun v => Except.error v)) none] 1
        [Action.resolve 0 (JSVal.num 1), Action.runJob, Action.runJob, Action.runJob]) 1
      = some (.rejected (.num 1), .fulfilled (.array [.null, .num 1])) := rfl

/-- Two calls in a row, `until(f()); until(g())`: the second input is created after
the first call.  The first input succeeds with `42`, the second fails with
`Error("boom")`, in either order of settlement. -/
theorem scenario_two_calls :
    (session2 [Action.newPromise] 0 [Action.newPromise] 3
        [Action.reject 3 (JSVal.error "boom"), Action.resolve 0 (JSVal.num 42), Action.runJob,
          Action.runJob, Action.runJob, Action.runJob]).map
        (fun r => (r.1.stateOf 0, r.1.stateOf 3, r.1.stateOf r.2.1, r.1.stateOf r.2.2,
          r.1.jobs.length))
      = some (.fulfilled (.num 42), .rejected (.error "boom"),
          .fulfilled (.array [.num 42, .null]), .fulfilled (.array [.null, .error "boom"]), 0) ∧
    (session2 [Action.newPromise] 0 [Action.newPromise] 3
        [Action.resolve 0 (JSVal.num 42), Action.reject 3 (JSVal.error "boom"), Action.runJob,
          Action.runJob, Action.runJob, Action.runJob]).map
        (fun r => (r.1.stateOf 0, r.1.stateOf 3, r.1.stateOf r.2.1, r.1.stateOf r.2.2,
          r.1.jobs.length))
      = some (.fulfilled (.num 42), .rejected (.error "boom"),
          .fulfilled (.array [.num 42, .null]), .fulfilled (.array [.null, .error "boom"]), 0) :=
  ⟨rfl, rfl⟩

/-! ## The claims -/

/-- C1: an input that settles successfully with any value `v` makes the promise
returned by `until` settle successfully with the tuple `[v, null]`.  In every heap
reached after the call in which the input is fulfilled with `v`, the result is
still pending or fulfilled with `[v, null]`; it is fulfilled with `[v, null]` when
the job queue is empty, and after enough jobs from then on.  The value slot of the
tuple is `v` itself and the error slot is `null`. -/
theorem until_success_tuple (pre post : List Action) (p : Nat) (v : JSVal)
    (hp : p < (exec Heap.empty pre).next) :
    ∃ s o, session pre p post = some (s, o) ∧
      (s.stateOf p = .fulfilled v →
        (s.stateOf o = .pending ∨ s.stateOf o = .fulfilled (.array [v, .null])) ∧
        (s.jobs = [] → s.stateOf o = .fulfilled (.array [v, .null])) ∧
        (∃ n, ∀ k, n ≤ k → (drain s k).stateOf o = .fulfilled (.array [v, .null]))) ∧
      (JSVal.array [v, .null]).index 0 = v ∧ (JSVal.array [v, .null]).index 1 = .null := by
  obtain ⟨s, e, a⟩ := session_spec pre p post hp
  refine ⟨s, _, e, ?_, rfl, rfl⟩
  intro hv
  refine ⟨?_, ?_, ?_⟩
  · have := Adapted_state a
    rw [hv] at this
    exact this
  · intro hq
    have := Adapted_quiescent a hq
    rw [hv] at this
    exact this
  · have := Adapted_progress a (by rw [hv]; simp)
    rw [hv] at this
    exact this

/-- Witness of C1: a new promise resolved with `42`, two jobs run. -/
theorem until_success_tuple_witness :
    0 < (exec Heap.empty [Action.newPromise]).next ∧
    ∃ s o, session [Action.newPromise] 0
        [Action.resolve 0 (JSVal.num 42), Action.runJob, Action.runJob] = some (s, o) ∧
      (s.stateOf 0 = .fulfilled (JSVal.num 42) →
        (s.stateOf o = .pending ∨ s.stateOf o = .fulfilled (.array [JSVal.num 42, .null])) ∧
        (s.jobs = [] → s.stateOf o = .fulfilled (.array [JSVal.num 42, .null])) ∧
        (∃ n, ∀ k, n ≤ k →
          (drain s k).stateOf o = .fulfilled (.array [JSVal.num 42, .null]))) ∧
      (JSVal.array [JSVal.num 42, .null]).index 0 = JSVal.num 42 ∧
      (JSVal.array [JSVal.num 42, .null]).index 1 = .null :=
  ⟨by decide, until_success_tuple [Action.newPromise]
    [Action.resolve 0 (JSVal.num 42), Action.runJob, Action.runJob] 0 (JSVal.num 42) (by decide)⟩

/-- C2: an input that settles unsuccessfully with any reason `e` makes the promise
returned by `until` settle successfully with the tuple `[null, e]`.  In every heap
reached after the call in which the input is rejected with `e`, the result is still
pending or fulfilled with `[null, e]`; it is fulfilled with `[null, e]` when the job
queue is empty, and after enough jobs from then on.  The value slot of the tuple is
`null` and the error slot is `e` itself. -/
theorem until_failure_tuple (pre post : List Action) (p : Nat) (e : JSVal)
    (hp : p < (exec Heap.empty pre).next) :
    ∃ s o, session pre p post = some (s, o) ∧
      (s.stateOf p = .rejected e →
        (s.stateOf o = .pending ∨ s.stateOf o = .fulfilled (.array [.null, e])) ∧
        (s.jobs = [] → s.stateOf o = .fulfilled (.array [.null, e])) ∧
        (∃ n, ∀ k, n ≤ k → (drain s k).stateOf o = .fulfilled (.array [.null, e]))) ∧
      (JSVal.array [.null, e]).index 0 = .null ∧ (JSVal.array [.null, e]).index 1 = e := by
  obtain ⟨s, es, a⟩ := session_spec pre p post hp
  refine ⟨s, _, es, ?_, rfl, rfl⟩
  intro hv
  refine ⟨?_, ?_, ?_⟩
  · have := Adapted_state a
    rw [hv] at this
    exact this
  · intro hq
    have := Adapted_quiescent a hq
    rw [hv] at this
    exact this
  · have := Adapted_progress a (by rw [hv]; simp)
    rw [hv] at this
    exact this

/-- Witness of C2: a new promise rejected with `Error("boom")`, two jobs run. -/
theorem until_failure_tuple_witness :
    0 < (exec Heap.empty [Action.newPromise]).next ∧
    ∃ s o, session [Action.newPromise] 0
        [Action.reject 0 (JSVal.error "boom"), Action.runJob, Action.runJob] = some (s, o) ∧
      (s.stateOf 0 = .rejected (JSVal.error "boom") →
        (s.stateOf o = .pending ∨ s.stateOf o = .fulfilled (.array [.null, JSVal.error "boom"])) ∧
        (s.jobs = [] → s.stateOf o = .fulfilled (.array [.null, JSVal.error "boom"])) ∧
        (∃ n, ∀ k, n ≤ k →
          (drain s k).stateOf o = .fulfilled (.array [.null, JSVal.error "boom"]))) ∧
      (JSVal.array [.null, JSVal.error "boom"]).index 0 = .null ∧
      (JSVal.array [.null, JSVal.error "boom"]).index 1 = JSVal.error "boom" :=
  ⟨by decide, until_failure_tuple [Action.newPromise]
    [Action.reject 0 (JSVal.error "boom"), Action.runJob, Action.runJob] 0 (JSVal.error "boom")
    (by decide)⟩

/-- C3: the promise returned by `until` never settles unsuccessfully.  In every heap
reached after the call it is not rejected, whatever happened to the input, and when
it is settled it is fulfilled. -/
theorem until_never_rejects (pre post : List Action) (p : Nat)
    (hp : p < (exec Heap.empty pre).next) :
    ∃ s o, session pre p post = some (s, o) ∧
      (∀ e, s.stateOf o ≠ .rejected e) ∧
      ((s.stateOf o).settled = true → ∃ t, s.stateOf o = .fulfilled t) := by
  obtain ⟨s, es, a⟩ := session_spec pre p post hp
  have key : s.stateOf ((exec Heap.empty pre).next + 1) = .pending ∨
      ∃ t, s.stateOf ((exec Heap.empty pre).next + 1) = .fulfilled t := by
    rcases Adapted_state a with h | h
    · exact Or.inl h
    · cases hs : s.stateOf p with
      | pending => rw [hs] at h; exact Or.inl h
      | fulfilled v => rw [hs] at h; exact Or.inr ⟨_, h⟩
      | rejected v => rw [hs] at h; exact Or.inr ⟨_, h⟩
  refine ⟨s, _, es, ?_, ?_⟩
  · intro e he
    rcases key with h | ⟨t, h⟩
    · rw [h] at he; simp at he
    · rw [h] at he; simp at he
  · intro hs
    rcases key with h | h
    · rw [h] at hs; simp [PromiseState.settled] at hs
    · exact h

/-- Witness of C3: a new promise rejected with `Error("boom")`, two jobs run. -/
theorem until_never_rejects_witness :
    0 < (exec Heap.empty [Action.newPromise]).next ∧
    ∃ s o, session [Action.newPromise] 0
        [Action.reject 0 (JSVal.error "boom"), Action.runJob, Action.runJob] = some (s, o) ∧
      (∀ e, s.stateOf o ≠ .rejected e) ∧
      ((s.stateOf o).settled = true → ∃ t, s.stateOf o = .fulfilled t) :=
  ⟨by decide, until_never_rejects [Action.newPromise]
    [Action.reject 0 (JSVal.error "boom"), Action.runJob, Action.runJob] 0 (by decide)⟩

/-- C4, as stated, fails: an input fulfilled with `null` gives the tuple
`[null, null]`, in which no slot is non-null. -/
theorem exclusivity_fails_on_null_value :
    observe (session [Action.newPromise] 0
        [Action.resolve 0 JSVal.null, Action.runJob, Action.runJob]) 0
      = some (.fulfilled .null, .fulfilled (.array [.null, .null])) ∧
    exclusive (.array [.null, .null]) = false :=
  ⟨rfl, rfl⟩

/-- C4, amended: the tuple produced by `until` always has a slot that is exactly
`null` (the two slots are never both populated), and exactly one slot is non-null
if and only if the value or reason the input settled with is not `null`; an input
that settles with `null` gives `[null, null]`. -/
theorem until_tuple_slots (pre post : List Action) (p : Nat)
    (hp : p < (exec Heap.empty pre).next) :
    ∃ s o, session pre p post = some (s, o) ∧
      ∀ t, s.stateOf o = .fulfilled t →
        ((t.index 0).isNull = true ∨ (t.index 1).isNull = true) ∧
        ∃ x, (s.stateOf p).payload = some x ∧ exclusive t = !x.isNull ∧
          (x.isNull = true → t = .array [.null, .null]) := by
  obtain ⟨s, es, a⟩ := session_spec pre p post hp
  refine ⟨s, _, es, ?_⟩
  intro t ht
  have h := Adapted_settled_eq a (by rw [ht]; simp)
  rw [ht] at h
  cases hs : s.stateOf p with
  | pending => rw [hs] at h; simp [untilState_pending] at h
  | fulfilled v =>
      rw [hs, untilState_fulfilled] at h
      injection h with h
      subst h
      refine ⟨Or.inr rfl, v, rfl, ?_, ?_⟩
      · simp [exclusive, JSVal.index, JSVal.isNull]
      · intro hv; rw [isNull_eq_true v hv]
  | rejected e =>
      rw [hs, untilState_rejected] at h
      injection h with h
      subst h
      refine ⟨Or.inl rfl, e, rfl, ?_, ?_⟩
      · simp [exclusive, JSVal.index, JSVal.isNull]
      · intro hv; rw [isNull_eq_true e hv]

/-- Witness of the amended C4: a new promise resolved with `42`, two jobs run. -/
theorem until_tuple_slots_witness :
    0 < (exec Heap.empty [Action.newPromise]).next ∧
    ∃ s o, session [Action.newPromise] 0
        [Action.resolve 0 (JSVal.num 42), Action.runJob, Action.runJob] = some (s, o) ∧
      ∀ t, s.stateOf o = .fulfilled t →
        ((t.index 0).isNull = true ∨ (t.index 1).isNull = true) ∧
        ∃ x, (s.stateOf 0).payload = some x ∧ exclusive t = !x.isNull ∧
          (x.isNull = true → t = .array [.null, .null]) :=
  ⟨by decide, until_tuple_slots [Action.newPromise]
    [Action.resolve 0 (JSVal.num 42), Action.runJob, Action.runJob] 0 (by decide)⟩

/-- C5, as stated, fails: an input rejected with the reason `null` gives the tuple
`[null, null]`, whose error slot is `null` although the input failed. -/
theorem null_error_slot_on_failure :
    observe (session [Action.newPromise] 0
        [Action.reject 0 JSVal.null, Action.runJob, Action.runJob]) 0
      = some (.rejected .null, .fulfilled (.array [.null, .null])) ∧
    ((JSVal.array [.null, .null]).index 1).isNull = true :=
  ⟨rfl, rfl⟩

/-- C5, amended: the error slot of the tuple produced by `until` is non-null if and
only if the input settled unsuccessfully with a reason that is not `null`.  A
non-null error slot therefore means that the input failed; a `null` error slot
means that the input succeeded or failed with the reason `null`. -/
theorem until_error_slot (pre post : List Action) (p : Nat)
    (hp : p < (exec Heap.empty pre).next) :
    ∃ s o, session pre p post = some (s, o) ∧
      ∀ t, s.stateOf o = .fulfilled t →
        ((t.index 1).isNull = false ↔ ∃ e, s.stateOf p = .rejected e ∧ e.isNull = false) := by
  obtain ⟨s, es, a⟩ := session_spec pre p post hp
  refine ⟨s, _, es, ?_⟩
  intro t ht
  have h := Adapted_settled_eq a (by rw [ht]; simp)
  rw [ht] at h
  cases hs : s.stateOf p with
  | pending => rw [hs] at h; simp [untilState_pending] at h
  | fulfilled v =>
      rw [hs, untilState_fulfilled] at h
      injection h with h
      subst h
      simp [JSVal.index, JSVal.isNull]
  | rejected e =>
      rw [hs, untilState_rejected] at h
      injection h with h
      subst h
      simp [JSVal.index]

/-- Witness of the amended C5: a new promise rejected with `Error("boom")`. -/
theorem until_error_slot_witness :
    0 < (exec Heap.empty [Action.newPromise]).next ∧
    ∃ s o, session [Action.newPromise] 0
        [Action.reject 0 (JSVal.error "boom"), Action.runJob, Action.runJob] = some (s, o) ∧
      ∀ t, s.stateOf o = .fulfilled t →
        ((t.index 1).isNull = false ↔ ∃ e, s.stateOf 0 = .rejected e ∧ e.isNull = false) :=
  ⟨by decide, until_error_slot [Action.newPromise]
    [Action.reject 0 (JSVal.error "boom"), Action.runJob, Action.runJob] 0 (by decide)⟩

/-- C6: the promise returned by `until` is settled only once the input is settled.
In every heap reached after the call: while the input is pending the result is
pending; a settled result means a settled input; with an empty job queue the result
is settled if and only if the input is; letting the queued jobs run, the result
gets settled if and only if the input gets settled; and once the input is settled
the result is settled after enough jobs, and stays settled. -/
theorem until_settles_with_input (pre post : List Action) (p : Nat)
    (hp : p < (exec Heap.empty pre).next) :
    ∃ s o, session pre p post = some (s, o) ∧
      ((s.stateOf p).settled = false → (s.stateOf o).settled = false) ∧
      ((s.stateOf o).settled = true → (s.stateOf p).settled = true) ∧
      (s.jobs = [] → ((s.stateOf o).settled = true ↔ (s.stateOf p).settled = true)) ∧
      ((∃ k, ((drain s k).stateOf o).settled = true) ↔
        (∃ k, ((drain s k).stateOf p).settled = true)) ∧
      ((s.stateOf p).settled = true →
        ∃ n, ∀ k, n ≤ k → ((drain s k).stateOf o).settled = true) := by
  obtain ⟨s, es, a⟩ := session_spec pre p post hp
  have back : (s.stateOf ((exec Heap.empty pre).next + 1)).settled = true →
      (s.stateOf p).settled = true := by
    intro h
    rw [settled_iff] at h ⊢
    exact Adapted_input_settled a h
  refine ⟨s, _, es, ?_, back, ?_, ?_, ?_⟩
  · intro h
    rw [settled_false_iff] at h ⊢
    exact Derived_pending_of_pending a.second (Derived_pending_of_pending a.first h)
  · intro hq
    refine ⟨back, ?_⟩
    intro h
    rw [settled_iff] at h ⊢
    rw [Adapted_quiescent a hq]
    exact untilState_ne_pending _ h
  · constructor
    · rintro ⟨k, hk⟩
      have ak : Adapted (drain s k) p _ _ := Adapted_exec (List.replicate k Action.runJob) s a
      rw [settled_iff] at hk
      exact ⟨k, (settled_iff _).mpr (Adapted_input_settled ak hk)⟩
    · rintro ⟨k, hk⟩
      have ak : Adapted (drain s k) p _ _ := Adapted_exec (List.replicate k Action.runJob) s a
      rw [settled_iff] at hk
      obtain ⟨n, hn⟩ := Adapted_progress ak hk
      refine ⟨k + n, ?_⟩
      rw [← drain_add, settled_iff, hn n (Nat.le_refl n)]
      exact untilState_ne_pending _ hk
  · intro h
    rw [settled_iff] at h
    obtain ⟨n, hn⟩ := Adapted_progress a h
    refine ⟨n, fun k hk => ?_⟩
    rw [settled_iff, hn k hk]
    exact untilState_ne_pending _ h

/-- Witness of C6: `until` is called on a pending promise, which is resolved later. -/
theorem until_settles_with_input_witness :
    0 < (exec Heap.empty [Action.newPromise]).next ∧
    ∃ s o, session [Action.newPromise] 0
        [Action.resolve 0 (JSVal.num 42), Action.runJob] = some (s, o) ∧
      ((s.stateOf 0).settled = false → (s.stateOf o).settled = false) ∧
      ((s.stateOf o).settled = true → (s.stateOf 0).settled = true) ∧
      (s.jobs = [] → ((s.stateOf o).settled = true ↔ (s.stateOf 0).settled = true)) ∧
      ((∃ k, ((drain s k).stateOf o).settled = true) ↔
        (∃ k, ((drain s k).stateOf 0).settled = true)) ∧
      ((s.stateOf 0).settled = true →
        ∃ n, ∀ k, n ≤ k → ((drain s k).stateOf o).settled = true) :=
  ⟨by decide, until_settles_with_input [Action.newPromise]
    [Action.resolve 0 (JSVal.num 42), Action.runJob] 0 (by decide)⟩

/-- C7: two invocations of `until` on one event loop do not interfere.  For every
input `p` that exists at the first call and every input `q` that exists at the
second call (created before the first call, between the calls, or made by the
first call), whatever runs before, between and after the two calls, the two results
are different promises, and each is pending or what its own input's settlement
gives; with an empty job queue each is exactly that.  When `p` succeeds with `v`
and `q` fails with `e` the results become `[v, null]` and `[null, e]`, and the
same with the roles of the two calls exchanged. -/
theorem until_invocations_independent (pre mid post : List Action) (p q : Nat)
    (hp : p < (exec Heap.empty pre).next) (hq : q < promisesAtSecondCall pre p mid) :
    ∃ s o1 o2, session2 pre p mid q post = some (s, o1, o2) ∧ o1 ≠ o2 ∧
      (s.stateOf o1 = .pending ∨ s.stateOf o1 = untilState (s.stateOf p)) ∧
      (s.stateOf o2 = .pending ∨ s.stateOf o2 = untilState (s.stateOf q)) ∧
      (s.jobs = [] →
        s.stateOf o1 = untilState (s.stateOf p) ∧ s.stateOf o2 = untilState (s.stateOf q)) ∧
      (∀ v e, s.stateOf p = .fulfilled v → s.stateOf q = .rejected e →
        ∃ n, ∀ k, n ≤ k →
          (drain s k).stateOf o1 = .fulfilled (.array [v, .null]) ∧
          (drain s k).stateOf o2 = .fulfilled (.array [.null, e])) ∧
      (∀ v e, s.stateOf p = .rejected e → s.stateOf q = .fulfilled v →
        ∃ n, ∀ k, n ≤ k →
          (drain s k).stateOf o1 = .fulfilled (.array [.null, e]) ∧
          (drain s k).stateOf o2 = .fulfilled (.array [v, .null])) := by
  obtain ⟨s, o1, o2, es, hlt, ⟨m1, a1⟩, ⟨m2, a2⟩⟩ := session2_spec pre p mid q post hp hq
  have both : s.stateOf p ≠ .pending → s.stateOf q ≠ .pending →
      ∃ n, ∀ k, n ≤ k → (drain s k).stateOf o1 = untilState (s.stateOf p) ∧
        (drain s k).stateOf o2 = untilState (s.stateOf q) := by
    intro h1 h2
    obtain ⟨n1, g1⟩ := Adapted_progress a1 h1
    obtain ⟨n2, g2⟩ := Adapted_progress a2 h2
    exact ⟨max n1 n2, fun k hk =>
      ⟨g1 k (le_trans (le_max_left _ _) hk), g2 k (le_trans (le_max_right _ _) hk)⟩⟩
  refine ⟨s, o1, o2, es, Nat.ne_of_lt hlt, Adapted_state a1, Adapted_state a2,
    fun hj => ⟨Adapted_quiescent a1 hj, Adapted_quiescent a2 hj⟩, ?_, ?_⟩
  · intro v e h1 h2
    have := both (by rw [h1]; simp) (by rw [h2]; simp)
    rw [h1, h2] at this
    exact this
  · intro v e h1 h2
    have := both (by rw [h1]; simp) (by rw [h2]; simp)
    rw [h1, h2] at this
    exact this

/-- Witness of C7: `until(f()); until(g())`.  The first input is created and given
to `until`, then the second input is created (promise `3`, after the two promises
the first call made) and given to `until`; the second is rejected with
`Error("boom")` before the first is resolved with `42`. -/
theorem until_invocations_independent_witness :
    (0 < (exec Heap.empty [Action.newPromise]).next ∧
      3 < promisesAtSecondCall [Action.newPromise] 0 [Action.newPromise]) ∧
    ∃ s o1 o2, session2 [Action.newPromise] 0 [Action.newPromise] 3
        [Action.reject 3 (JSVal.error "boom"), Action.resolve 0 (JSVal.num 42), Action.runJob,
          Action.runJob, Action.runJob, Action.runJob]
        = some (s, o1, o2) ∧ o1 ≠ o2 ∧
      (s.stateOf o1 = .pending ∨ s.stateOf o1 = untilState (s.stateOf 0)) ∧
      (s.stateOf o2 = .pending ∨ s.stateOf o2 = untilState (s.stateOf 3)) ∧
      (s.jobs = [] →
        s.stateOf o1 = untilState (s.stateOf 0) ∧ s.stateOf o2 = untilState (s.stateOf 3)) ∧
      (∀ v e, s.stateOf 0 = .fulfilled v → s.stateOf 3 = .rejected e →
        ∃ n, ∀ k, n ≤ k →
          (drain s k).stateOf o1 = .fulfilled (.array [v, .null]) ∧
          (drain s k).stateOf o2 = .fulfilled (.array [.null, e])) ∧
      (∀ v e, s.stateOf 0 = .rejected e → s.stateOf 3 = .fulfilled v →
        ∃ n, ∀ k, n ≤ k →
          (drain s k).stateOf o1 = .fulfilled (.array [.null, e]) ∧
          (drain s k).stateOf o2 = .fulfilled (.array [v, .null])) :=
  ⟨⟨by decide, by decide⟩, until_invocations_independent [Action.newPromise] [Action.newPromise]
    [Action.reject 3 (JSVal.error "boom"), Action.resolve 0 (JSVal.num 42), Action.runJob,
      Action.runJob, Action.runJob, Action.runJob] 0 3 (by decide) (by decide)⟩

/-- C8: the `null` sentinel conflates absence with a `null` payload.  An input that
succeeds with `null` and an input that fails with `null` are different settlements
and give the same tuple `[null, null]`: the map from the settlement of the input to
the settlement of the result is not injective. -/
theorem until_conflates_null :
    observe (session [Action.newPromise] 0
        [Action.resolve 0 JSVal.null, Action.runJob, Action.runJob]) 0
      = some (.fulfilled .null, .fulfilled (.array [.null, .null])) ∧
    observe (session [Action.newPromise] 0
        [Action.reject 0 JSVal.null, Action.runJob, Action.runJob]) 0
      = some (.rejected .null, .fulfilled (.array [.null, .null])) ∧
    PromiseState.fulfilled JSVal.null ≠ PromiseState.rejected JSVal.null ∧
    untilState (.fulfilled .null) = untilState (.rejected .null) ∧
    ¬ Function.Injective untilState := by
  refine ⟨rfl, rfl, by simp, rfl, ?_⟩
  intro hinj
  have h : PromiseState.fulfilled JSVal.null = PromiseState.rejected JSVal.null := hinj rfl
  simp at h

/-- C9: of the two continuations that `until` registers, the one matching the
settlement of the input runs, once, and the other does not run.  Here `m` is the
promise made by `then`, for which the success continuation runs, and `o` the
promise made by `catch`, for which the failure continuation runs.  In every heap
reached after the call: with a pending input neither has run; with an input
fulfilled with `v` the failure continuation has not run and the success
continuation has run at most once, on `v`, building `[v, null]`; it has run
exactly once as soon as the result is settled, which happens after enough jobs.
With an input rejected with `e` the same holds with the roles exchanged. -/
theorem until_runs_one_continuation (pre post : List Action) (p : Nat)
    (hp : p < (exec Heap.empty pre).next) :
    ∃ s m o, session pre p post = some (s, o) ∧ m = (exec Heap.empty pre).next ∧ o = m + 1 ∧
      (s.stateOf p = .pending → s.callsFor m = [] ∧ s.callsFor o = []) ∧
      (∀ v, s.stateOf p = .fulfilled v →
        s.callsFor o = [] ∧
        (s.callsFor m = [] ∨ s.callsFor m = [successCall m v]) ∧
        (s.stateOf o ≠ .pending → s.callsFor m = [successCall m v]) ∧
        ∃ n, ∀ k, n ≤ k →
          (drain s k).callsFor m = [successCall m v] ∧ (drain s k).callsFor o = []) ∧
      (∀ e, s.stateOf p = .rejected e →
        s.callsFor m = [] ∧
        (s.callsFor o = [] ∨ s.callsFor o = [failureCall o e]) ∧
        (s.stateOf o ≠ .pending → s.callsFor o = [failureCall o e]) ∧
        ∃ n, ∀ k, n ≤ k →
          (drain s k).callsFor o = [failureCall o e] ∧ (drain s k).callsFor m = []) := by
  obtain ⟨s, es, a⟩ := session_spec pre p post hp
  refine ⟨s, _, _, es, rfl, rfl, Adapted_calls_pending a, ?_, ?_⟩
  · intro v hv
    obtain ⟨c1, c2, c3⟩ := Adapted_calls_fulfilled a v hv
    refine ⟨c1, c2, c3, ?_⟩
    have hs : s.stateOf p ≠ .pending := by rw [hv]; simp
    obtain ⟨n, hn⟩ := Adapted_progress a hs
    refine ⟨n, fun k hk => ?_⟩
    have ak : Adapted (drain s k) p _ _ := Adapted_exec (List.replicate k Action.runJob) s a
    have hpk : (drain s k).stateOf p = .fulfilled v := by
      rw [← hv]; exact exec_stateOf _ s p a.first.p_lt hs
    have hok : (drain s k).stateOf ((exec Heap.empty pre).next + 1) ≠ .pending := by
      rw [hn k hk]; exact untilState_ne_pending _ hs
    obtain ⟨d1, _, d3⟩ := Adapted_calls_fulfilled ak v hpk
    exact ⟨d3 hok, d1⟩
  · intro e he
    obtain ⟨c1, c2, c3⟩ := Adapted_calls_rejected a e he
    refine ⟨c1, c2, c3, ?_⟩
    have hs : s.stateOf p ≠ .pending := by rw [he]; simp
    obtain ⟨n, hn⟩ := Adapted_progress a hs
    refine ⟨n, fun k hk => ?_⟩
    have ak : Adapted (drain s k) p _ _ := Adapted_exec (List.replicate k Action.runJob) s a
    have hpk : (drain s k).stateOf p = .rejected e := by
      rw [← he]; exact exec_stateOf _ s p a.first.p_lt hs
    have hok : (drain s k).stateOf ((exec Heap.empty pre).next + 1) ≠ .pending := by
      rw [hn k hk]; exact untilState_ne_pending _ hs
    obtain ⟨d1, _, d3⟩ := Adapted_calls_rejected ak e hpk
    exact ⟨d3 hok, d1⟩

/-- Witness of C9: a new promise rejected with `Error("boom")`, two jobs run. -/
theorem until_runs_one_continuation_witness :
    0 < (exec Heap.empty [Action.newPromise]).next ∧
    ∃ s m o, session [Action.newPromise] 0
        [Action.reject 0 (JSVal.error "boom"), Action.runJob, Action.runJob] = some (s, o) ∧
      m = (exec Heap.empty [Action.newPromise]).next ∧ o = m + 1 ∧
      (s.stateOf 0 = .pending → s.callsFor m = [] ∧ s.callsFor o = []) ∧
      (∀ v, s.stateOf 0 = .fulfilled v →
        s.callsFor o = [] ∧
        (s.callsFor m = [] ∨ s.callsFor m = [successCall m v]) ∧
        (s.stateOf o ≠ .pending → s.callsFor m = [successCall m v]) ∧
        ∃ n, ∀ k, n ≤ k →
          (drain s k).callsFor m = [successCall m v] ∧ (drain s k).callsFor o = []) ∧
      (∀ e, s.stateOf 0 = .rejected e →
        s.callsFor m = [] ∧
        (s.callsFor o = [] ∨ s.callsFor o = [failureCall o e]) ∧
        (s.stateOf o ≠ .pending → s.callsFor o = [failureCall o e]) ∧
        ∃ n, ∀ k, n ≤ k →
          (drain s k).callsFor o = [failureCall o e] ∧ (drain s k).callsFor m = []) :=
  ⟨by decide, until_runs_one_continuation [Action.newPromise]
    [Action.reject 0 (JSVal.error "boom"), Action.runJob, Action.runJob] 0 (by decide)⟩

/-- The two forms differ for a success continuation that throws: chained, the
failure continuation receives what the success continuation threw. -/
theorem chained_differs_when_success_throws :
    thenState none (some onFailure)
        (thenState (some (fun v => Except.error v)) none (.fulfilled .null))
      ≠ thenState (some (fun v => Except.error v)) (some onFailure) (.fulfilled .null) := by
  simp [thenState, runHandler, onFailure, Completion.toState]

/-- C10: the chained form `input.then(onSuccess).catch(onFailure)` that `until` uses
and the two-callback form `input.then(onSuccess, onFailure)` give the same result
for every settlement of the input.  Run each form after the same history, with any
continuation of the event loop: each result is pending or what the two-callback
`then` makes of the settlement of the input; with both job queues empty and the
input in the same state the two results are equal; once the input is settled both
results are settled and equal after enough jobs.  In the chained form the failure
continuation is only ever invoked on the reason the input was rejected with. -/
theorem chained_equiv_twoCallback (pre post1 post2 : List Action) (p : Nat)
    (hp : p < (exec Heap.empty pre).next) :
    ∃ s1 o1 s2 o2, session pre p post1 = some (s1, o1) ∧
      sessionTwoCallback pre p post2 = some (s2, o2) ∧
      (s1.stateOf o1 = .pending ∨
        s1.stateOf o1 = thenState (some onSuccess) (some onFailure) (s1.stateOf p)) ∧
      (s2.stateOf o2 = .pending ∨
        s2.stateOf o2 = thenState (some onSuccess) (some onFailure) (s2.stateOf p)) ∧
      (s1.stateOf p = s2.stateOf p → s1.jobs = [] → s2.jobs = [] →
        s1.stateOf o1 = s2.stateOf o2) ∧
      (s1.stateOf p = s2.stateOf p → (s1.stateOf p).settled = true →
        ∃ n, ∀ k, n ≤ k → (drain s1 k).stateOf o1 = (drain s2 k).stateOf o2 ∧
          ((drain s1 k).stateOf o1).settled = true) ∧
      (∀ x ∈ s1.callsFor o1, x.handler = onFailure ∧ s1.stateOf p = .rejected x.argument) ∧
      (∀ sp, thenState none (some onFailure) (thenState (some onSuccess) none sp)
        = thenState (some onSuccess) (some onFailure) sp) := by
  obtain ⟨s1, e1, a⟩ := session_spec pre p post1 hp
  obtain ⟨s2, e2, d⟩ := sessionTwoCallback_spec pre p post2 hp
  refine ⟨s1, _, s2, _, e1, e2, ?_, d.state, ?_, ?_, ?_, fun sp => (twoCallback_state sp).symm⟩
  · rw [twoCallback_state]; exact Adapted_state a
  · intro hpp hj1 hj2
    rw [Adapted_quiescent a hj1, Derived_quiescent d hj2, twoCallback_state, hpp]
  · intro hpp hs
    rw [settled_iff] at hs
    obtain ⟨n1, g1⟩ := Adapted_progress a hs
    obtain ⟨n2, g2⟩ := Derived_progress d (by rw [← hpp]; exact hs)
    refine ⟨max n1 n2, fun k hk => ?_⟩
    have k1 := g1 k (le_trans (le_max_left _ _) hk)
    have k2 := g2 k (le_trans (le_max_right _ _) hk)
    refine ⟨?_, ?_⟩
    · rw [k1, k2, twoCallback_state, hpp]
    · rw [settled_iff, k1]; exact untilState_ne_pending _ hs
  · intro x hx
    cases hs : s1.stateOf p with
    | pending =>
        rw [(Adapted_calls_pending a hs).2] at hx
        simp at hx
    | fulfilled v =>
        rw [(Adapted_calls_fulfilled a v hs).1] at hx
        simp at hx
    | rejected e =>
        rcases (Adapted_calls_rejected a e hs).2.1 with h0 | h1
        · rw [h0] at hx; simp at hx
        · rw [h1] at hx
          simp only [List.mem_singleton] at hx
          rw [hx]
          exact ⟨rfl, rfl⟩

/-- Witness of C10: a new promise rejected with `Error("boom")`; the chained form
needs two jobs and the two-callback form one. -/
theorem chained_equiv_twoCallback_witness :
    0 < (exec Heap.empty [Action.newPromise]).next ∧
    ∃ s1 o1 s2 o2, session [Action.newPromise] 0
        [Action.reject 0 (JSVal.error "boom"), Action.runJob, Action.runJob] = some (s1, o1) ∧
      sessionTwoCallback [Action.newPromise] 0
        [Action.reject 0 (JSVal.error "boom"), Action.runJob] = some (s2, o2) ∧
      (s1.stateOf o1 = .pending ∨
        s1.stateOf o1 = thenState (some onSuccess) (some onFailure) (s1.stateOf 0)) ∧
      (s2.stateOf o2 = .pending ∨
        s2.stateOf o2 = thenState (some onSuccess) (some onFailure) (s2.stateOf 0)) ∧
      (s1.stateOf 0 = s2.stateOf 0 → s1.jobs = [] → s2.jobs = [] →
        s1.stateOf o1 = s2.stateOf o2) ∧
      (s1.stateOf 0 = s2.stateOf 0 → (s1.stateOf 0).settled = true →
        ∃ n, ∀ k, n ≤ k → (drain s1 k).stateOf o1 = (drain s2 k).stateOf o2 ∧
          ((drain s1 k).stateOf o1).settled = true) ∧
      (∀ x ∈ s1.callsFor o1, x.handler = onFailure ∧ s1.stateOf 0 = .rejected x.argument) ∧
      (∀ sp, thenState none (some onFailure) (thenState (some onSuccess) none sp)
        = thenState (some onSuccess) (some onFailure) sp) :=
  ⟨by decide, chained_equiv_twoCallback [Action.newPromise]
    [Action.reject 0 (JSVal.error "boom"), Action.runJob, Action.runJob]
    [Action.reject 0 (JSVal.error "boom"), Action.runJob] 0 (by decide)⟩

end AwaitUntil
